import Mathlib

/-! LRU page replacement simulator (`simulateLRU`, `main` of `project4.cpp`)

A shallow embedding of the simulator and a verification of its specification.

Modelling conventions
* `std::list<int>` is a list of nodes. Every node carries the serial number of
  its allocation (`handle`); a `std::list<int>::iterator` is such a handle, so
  that it keeps designating the same node when the node is moved by `splice`.
* `std::unordered_map<int, V>` is an association list (`PageMap V`), read with
  `find`, changed with `erase` and `assign` (`m[k] = v`).
* Page identifiers are `Int`; slot indices and the counters `pageFaults`,
  `nextInsertIndex` are `Nat` (they only ever count up from `0`; the source's
  `int` counters agree with them on every reference string shorter than
  `2^31`).
* Operations whose behaviour C++ leaves undefined (`back()` on an empty list,
  an out-of-range `operator[]` on the vector, `splice` with a dangling
  iterator) and the `std::length_error` of the vector constructor are the
  errors of `Except Fault`.
-/

namespace LRU

/-! ## Containers -/

/-- Association list standing for `std::unordered_map<int, V>`. -/
abbrev PageMap (V : Type) := List (Int × V)

/-- Lookup of a key: `some v` when `m.count(k) == 1`, with `v` the mapped value. -/
def PageMap.find {V : Type} : PageMap V → Int → Option V
  | [], _ => none
  | (k', v) :: rest, k => if k' = k then some v else PageMap.find rest k

/-- The member function `erase(k)`. -/
def PageMap.erase {V : Type} : PageMap V → Int → PageMap V
  | [], _ => []
  | (k', v) :: rest, k =>
    if k' = k then PageMap.erase rest k else (k', v) :: PageMap.erase rest k

/-- The assignment `m[k] = v`: overwrite the entry of `k`, or create it. -/
def PageMap.assign {V : Type} (m : PageMap V) (k : Int) (v : V) : PageMap V :=
  (k, v) :: PageMap.erase m k

/-- A node of the `std::list<int>`: its allocation serial number and its value. -/
structure Node where
  handle : Nat
  page : Int
deriving DecidableEq, Repr

/-- Take the node designated by the iterator `it` out of the list:
the node and the remaining list, or `none` when no node has this handle. -/
def unlink (it : Nat) : List Node → Option (Node × List Node)
  | [] => none
  | n :: rest =>
    if n.handle = it then some (n, rest)
    else
      match unlink it rest with
      | none => none
      | some (m, rest') => some (m, n :: rest')

/-- The call `pageList.splice(pageList.begin(), pageList, it)`: the designated
node becomes the first one; `none` when `it` designates no node of the list. -/
def spliceFront (l : List Node) (it : Nat) : Option (List Node) :=
  match unlink it l with
  | none => none
  | some (n, rest) => some (n :: rest)

/-! ## State of the simulation loop -/

/-- The local variables of `simulateLRU`. -/
structure LRUState where
  pageList : List Node
  pageListIteratorMap : PageMap Nat
  framesDisplay : List Int
  framePositions : PageMap Nat
  pageFaults : Nat
  nextInsertIndex : Nat
  nextHandle : Nat
deriving DecidableEq, Repr

/-- What one loop iteration shows: the branch taken, the page removed by the
replacement branch, and the pages printed on the `time step` line. -/
structure StepRecord where
  isHit : Bool
  evicted : Option Int
  printed : List Int
deriving DecidableEq, Repr

/-- Abnormal ends of the run. -/
inductive Fault where
  | lengthError
  | emptyBack
  | danglingIterator
  | outOfRange
deriving DecidableEq, Repr

/-- The pages of the recency list, most recently used first. -/
def LRUState.pages (st : LRUState) : List Int := st.pageList.map Node.page

/-- The `time step` line: the entries of `framesDisplay` other than `-1`. -/
def printedFrames (framesDisplay : List Int) : List Int :=
  framesDisplay.filter (fun p => decide (p ≠ -1))

/-- The variables as declared at the top of `simulateLRU`. -/
def initState (numFrames : Int) : LRUState :=
  { pageList := []
    pageListIteratorMap := []
    framesDisplay := List.replicate numFrames.toNat (-1)
    framePositions := []
    pageFaults := 0
    nextInsertIndex := 0
    nextHandle := 0 }

/-- The `push_front(currentPage)` and the registration of `begin()` that end
the fault branch. -/
def pushFront (st : LRUState) (currentPage : Int) : LRUState :=
  { st with
    pageList := { handle := st.nextHandle, page := currentPage } :: st.pageList
    pageListIteratorMap := st.pageListIteratorMap.assign currentPage st.nextHandle
    nextHandle := st.nextHandle + 1 }

/-- One iteration of the simulation loop on `currentPage`. -/
def step (numFrames : Int) (st : LRUState) (currentPage : Int) :
    Except Fault (LRUState × StepRecord) :=
  match st.pageListIteratorMap.find currentPage with
  | some it =>
    -- page hit: move the node to the front
    match spliceFront st.pageList it with
    | none => .error .danglingIterator
    | some l =>
      .ok ({ st with pageList := l },
           { isHit := true, evicted := none, printed := printedFrames st.framesDisplay })
  | none =>
    -- page fault
    let pageFaults := st.pageFaults + 1
    if (st.pageList.length : Int) = numFrames then
      -- replacement
      match st.pageList.getLast? with
      | none => .error .emptyBack
      | some lruNode =>
        let lruPage := lruNode.page
        -- `framePositions[lruPage]` yields 0 when the key is missing
        let physicalIndex := (st.framePositions.find lruPage).getD 0
        if physicalIndex < st.framesDisplay.length then
          let framesDisplay := st.framesDisplay.set physicalIndex currentPage
          let st1 : LRUState :=
            { st with
              pageList := st.pageList.dropLast
              pageListIteratorMap := st.pageListIteratorMap.erase lruPage
              framePositions := (st.framePositions.erase lruPage).assign currentPage physicalIndex
              framesDisplay := framesDisplay
              pageFaults := pageFaults }
          .ok (pushFront st1 currentPage,
               { isHit := false, evicted := some lruPage, printed := printedFrames framesDisplay })
        else .error .outOfRange
    else
      -- initial fill
      if st.nextInsertIndex < st.framesDisplay.length then
        let framesDisplay := st.framesDisplay.set st.nextInsertIndex currentPage
        let st1 : LRUState :=
          { st with
            framesDisplay := framesDisplay
            framePositions := st.framePositions.assign currentPage st.nextInsertIndex
            nextInsertIndex := st.nextInsertIndex + 1
            pageFaults := pageFaults }
        .ok (pushFront st1 currentPage,
             { isHit := false, evicted := none, printed := printedFrames framesDisplay })
      else .error .outOfRange

/-- The simulation loop from a given state: the final state and the records of
the iterations, in order. -/
def runSteps (numFrames : Int) : LRUState → List Int → Except Fault (LRUState × List StepRecord)
  | st, [] => .ok (st, [])
  | st, p :: rest =>
    match step numFrames st p with
    | .error e => .error e
    | .ok (st', r) =>
      match runSteps numFrames st' rest with
      | .error e => .error e
      | .ok (st'', rs) => .ok (st'', r :: rs)

/-- What `simulateLRU` writes: the `time step` lines and the final total. -/
structure Output where
  steps : List StepRecord
  total : Nat
deriving DecidableEq, Repr

/-- The function `simulateLRU`. The constructor of `framesDisplay` throws for a
negative `numFrames` (the count is converted to an unsigned size). -/
def simulateLRU (numFrames : Int) (referenceString : List Int) : Except Fault Output :=
  if numFrames < 0 then .error .lengthError
  else
    match runSteps numFrames (initState numFrames) referenceString with
    | .error e => .error e
    | .ok (st, rs) => .ok { steps := rs, total := st.pageFaults }

/-- How `main` ends. -/
inductive MainResult where
  /-- The message on standard error and exit status 1; nothing was written to
  standard output. -/
  | formatError
  /-- The reference line was written and `simulateLRU` was called, with the
  given result. -/
  | simulated (referenceLine : List Int) (result : Except Fault Output)

/-- The function `main` on its tokenised input: the first token (if any), the
integer extracted after it (`none` when `std::cin >> numFrames` fails), and the
integers read by the `while (std::cin >> page)` loop. -/
def main (keyword : Option String) (numFrames : Option Int) (referenceString : List Int) :
    MainResult :=
  match keyword, numFrames with
  | some k, some n =>
    if k ≠ "Frames" then .formatError
    else .simulated referenceString (simulateLRU n referenceString)
  | _, _ => .formatError

/-- The loop state at the top of iteration `i` (after `i` references). -/
def stateAt (numFrames : Int) (referenceString : List Int) (i : Nat) : Except Fault LRUState :=
  match runSteps numFrames (initState numFrames) (referenceString.take i) with
  | .error e => .error e
  | .ok (st, _) => .ok st

/-! ## Invariants, branch results and notions of the specification -/

/-- Consistency of the five data structures for a capacity `C`. -/
structure WF (C : Nat) (st : LRUState) : Prop where
  handles_nodup : (st.pageList.map Node.handle).Nodup
  pages_nodup : st.pages.Nodup
  handles_lt : ∀ n ∈ st.pageList, n.handle < st.nextHandle
  iter_iff : ∀ p h, st.pageListIteratorMap.find p = some h ↔ Node.mk h p ∈ st.pageList
  display_len : st.framesDisplay.length = C
  next_eq : st.nextInsertIndex = st.pageList.length
  size_le : st.pageList.length ≤ C
  pos_dom : ∀ p, p ∈ st.pages → ∃ s, st.framePositions.find p = some s
  pos_display : ∀ p s, st.framePositions.find p = some s →
    p ∈ st.pages ∧ s < st.nextInsertIndex ∧ st.framesDisplay[s]? = some p
  display_pos : ∀ s, s < st.nextInsertIndex → ∃ p, st.framePositions.find p = some s
  display_empty : ∀ s, st.nextInsertIndex ≤ s → s < C → st.framesDisplay[s]? = some (-1)

/-- The state left by the hit branch when the iterator designates `n`. -/
def hitState (st : LRUState) (n : Node) : LRUState :=
  { st with pageList := n :: st.pageList.erase n }

/-- The state left by the replacement branch: victim `v` in slot `s`. -/
def replaceState (st : LRUState) (v : Node) (s : Nat) (p : Int) : LRUState :=
  pushFront
    { st with
      pageList := st.pageList.dropLast
      pageListIteratorMap := st.pageListIteratorMap.erase v.page
      framePositions := (st.framePositions.erase v.page).assign p s
      framesDisplay := st.framesDisplay.set s p
      pageFaults := st.pageFaults + 1 } p

/-- The state left by the initial-fill branch. -/
def fillState (st : LRUState) (p : Int) : LRUState :=
  pushFront
    { st with
      framesDisplay := st.framesDisplay.set st.nextInsertIndex p
      framePositions := st.framePositions.assign p st.nextInsertIndex
      nextInsertIndex := st.nextInsertIndex + 1
      pageFaults := st.pageFaults + 1 } p

/-- The index of the most recent reference to `p` among the first `i`
references, if there is one. -/
def lastRef (refs : List Int) (p : Int) : Nat → Option Nat
  | 0 => none
  | i + 1 => if refs[i]? = some p then some i else lastRef refs p i

/-- The recency list is ordered by most recent reference, latest first. -/
def RecencyOrdered (refs : List Int) (i : Nat) (pages : List Int) : Prop :=
  (∀ q ∈ pages, ∃ j, lastRef refs q i = some j) ∧
  pages.Pairwise (fun a b => ∃ ja jb, lastRef refs a i = some ja ∧
    lastRef refs b i = some jb ∧ jb < ja)

/-- Whether step `i` finds its page absent from the recency index, that is,
whether the page is not resident just before the step. -/
def isFaultStep (numFrames : Int) (refs : List Int) (i : Nat) : Bool :=
  match stateAt numFrames refs i, refs[i]? with
  | .ok st, some p => (st.pageListIteratorMap.find p).isNone
  | _, _ => false

/-- The number of steps whose page is not resident just before the step. -/
def countFaultSteps (numFrames : Int) (refs : List Int) : Nat :=
  ((List.range refs.length).filter (isFaultStep numFrames refs)).length

/-- A list node with its page renamed. -/
def renameNode (f : Int → Int) (n : Node) : Node := { handle := n.handle, page := f n.page }

/-- A map with its keys renamed. -/
def renameMap {V : Type} (f : Int → Int) (m : PageMap V) : PageMap V :=
  m.map (fun e => (f e.1, e.2))

/-- The state `st'` is the state `st` with every page `p` replaced by `f p`:
same handles, same slots, same counters, and the occupied part of
`framesDisplay` renamed slot by slot. -/
structure Renamed (f : Int → Int) (st st' : LRUState) : Prop where
  pageList : st'.pageList = st.pageList.map (renameNode f)
  iter : st'.pageListIteratorMap = renameMap f st.pageListIteratorMap
  pos : st'.framePositions = renameMap f st.framePositions
  faults : st'.pageFaults = st.pageFaults
  next : st'.nextInsertIndex = st.nextInsertIndex
  handle : st'.nextHandle = st.nextHandle
  display_len : st'.framesDisplay.length = st.framesDisplay.length
  display_lt : ∀ s, s < st.nextInsertIndex →
    st'.framesDisplay[s]? = (st.framesDisplay[s]?).map f
  display_ge : ∀ s, st.nextInsertIndex ≤ s → st'.framesDisplay[s]? = st.framesDisplay[s]?

/-- A list without its later duplicates: every page keeps its first
occurrence. -/
def keepFirst : List Int → List Int
  | [] => []
  | x :: xs => x :: (keepFirst xs).filter (fun q => decide (q ≠ x))

/-- The `C` most recently referenced distinct pages of a prefix of the
reference sequence, most recent first: the prefix is reversed, later duplicates
are removed, and the first `C` elements are kept. -/
def recentPages (C : Nat) (pre : List Int) : List Int := (keepFirst pre.reverse).take C

/-! ## Lemmas on the containers -/

theorem PageMap.find_erase {V : Type} (m : PageMap V) (k k' : Int) :
    (m.erase k').find k = if k = k' then none else m.find k := by
  induction m with
  | nil => simp [PageMap.erase, PageMap.find]
  | cons e rest ih =>
    obtain ⟨a, v⟩ := e
    by_cases h1 : a = k'
    · by_cases h2 : k = k'
      · subst h1; subst h2
        simpa [PageMap.erase] using ih
      · have h3 : ¬ k' = k := fun h => h2 h.symm
        simp [PageMap.erase, PageMap.find, h1, ih, h2, h3]
    · by_cases h2 : a = k
      · have h3 : ¬ k = k' := fun h => h1 (h2.trans h)
        simp [PageMap.erase, PageMap.find, h1, h2, h3]
      · simp [PageMap.erase, PageMap.find, h1, h2, ih]

theorem PageMap.find_assign {V : Type} (m : PageMap V) (k k' : Int) (v : V) :
    (m.assign k' v).find k = if k = k' then some v else m.find k := by
  by_cases h : k = k'
  · simp [PageMap.assign, PageMap.find, h]
  · have h3 : ¬ k' = k := fun e => h e.symm
    simp [PageMap.assign, PageMap.find, h, h3, PageMap.find_erase]

theorem unlink_some_of_mem (it : Nat) (l : List Node)
    (h : ∃ n ∈ l, n.handle = it) : ∃ n rest, unlink it l = some (n, rest) := by
  induction l with
  | nil => simp at h
  | cons a rest ih =>
    by_cases ha : a.handle = it
    · exact ⟨a, rest, by simp [unlink, ha]⟩
    · have h2 : ∃ n ∈ rest, n.handle = it := by
        obtain ⟨n, hn, hh⟩ := h
        rcases List.mem_cons.1 hn with e | e
        · exact absurd (e ▸ hh) ha
        · exact ⟨n, e, hh⟩
      obtain ⟨n, r, hu⟩ := ih h2
      exact ⟨n, a :: r, by simp [unlink, ha, hu]⟩

theorem unlink_spec (it : Nat) (l : List Node) (n : Node) (rest : List Node)
    (h : unlink it l = some (n, rest)) :
    n.handle = it ∧ n ∈ l ∧ rest = l.erase n ∧ (n :: rest).Perm l := by
  induction l generalizing rest with
  | nil => simp [unlink] at h
  | cons a tl ih =>
    by_cases ha : a.handle = it
    · simp [unlink, ha] at h
      obtain ⟨rfl, rfl⟩ := h
      simp [ha]
    · simp only [unlink, ha, if_false] at h
      cases hu : unlink it tl with
      | none => simp [hu] at h
      | some pr =>
        obtain ⟨m, r⟩ := pr
        simp [hu] at h
        obtain ⟨rfl, rfl⟩ := h
        obtain ⟨h1, h2, h3, h4⟩ := ih r hu
        have hne : a ≠ m := fun e => ha (e ▸ h1)
        refine ⟨h1, List.mem_cons_of_mem _ h2, ?_, ?_⟩
        · rw [List.erase_cons_tail (by simpa using hne), h3]
        · exact (List.Perm.swap a m r).trans (List.Perm.cons a h4)

/-! ## The representation invariant of the loop -/

theorem mem_pages_iff (st : LRUState) (p : Int) :
    p ∈ st.pages ↔ ∃ h, Node.mk h p ∈ st.pageList := by
  unfold LRUState.pages
  constructor
  · intro hp
    obtain ⟨n, hn, rfl⟩ := List.mem_map.1 hp
    exact ⟨n.handle, hn⟩
  · rintro ⟨h, hn⟩
    exact List.mem_map.2 ⟨_, hn, rfl⟩

theorem WF.find_none_iff {C : Nat} {st : LRUState} (h : WF C st) (p : Int) :
    st.pageListIteratorMap.find p = none ↔ p ∉ st.pages := by
  rw [mem_pages_iff]
  constructor
  · rintro hn ⟨it, hit⟩
    rw [(h.iter_iff p it).2 hit] at hn
    exact Option.noConfusion hn
  · intro hn
    cases hf : st.pageListIteratorMap.find p with
    | none => rfl
    | some it => exact absurd ⟨it, (h.iter_iff p it).1 hf⟩ hn

theorem wf_initState (C : Nat) : WF C (initState C) := by
  refine ⟨by simp [initState], by simp [initState, LRUState.pages], by simp [initState],
    by simp [initState, PageMap.find], by simp [initState], by simp [initState],
    by simp [initState], by simp [initState, LRUState.pages],
    by simp [initState, PageMap.find], by simp [initState], ?_⟩
  intro s _ hs
  simp [initState, hs]

theorem step_hit {C : Nat} {st : LRUState} (h : WF C st) {p : Int} (hp : p ∈ st.pages) :
    ∃ it, Node.mk it p ∈ st.pageList ∧
      step C st p = .ok (hitState st (Node.mk it p),
        { isHit := true, evicted := none, printed := printedFrames st.framesDisplay }) := by
  obtain ⟨it, hit⟩ := (mem_pages_iff st p).1 hp
  have hf := (h.iter_iff p it).2 hit
  obtain ⟨n, rest, hu⟩ := unlink_some_of_mem it st.pageList ⟨_, hit, rfl⟩
  obtain ⟨h1, h2, h3, _⟩ := unlink_spec it st.pageList n rest hu
  have hn : n = Node.mk it p := by
    have := List.inj_on_of_nodup_map h.handles_nodup h2 hit (by simp [h1])
    exact this
  subst hn
  refine ⟨it, hit, ?_⟩
  simp [step, hf, spliceFront, hu, hitState, h3]

theorem step_fault_full {C : Nat} {st : LRUState} (h : WF C st) (hC : 1 ≤ C) {p : Int}
    (hp : p ∉ st.pages) (hfull : st.pageList.length = C) :
    ∃ v s, st.pageList = st.pageList.dropLast ++ [v] ∧ st.framePositions.find v.page = some s ∧
      s < C ∧ st.framesDisplay[s]? = some v.page ∧
      step C st p = .ok (replaceState st v s p,
        { isHit := false, evicted := some v.page,
          printed := printedFrames (st.framesDisplay.set s p) }) := by
  have hf := (h.find_none_iff p).2 hp
  cases hl : st.pageList.getLast? with
  | none =>
    rw [List.getLast?_eq_none_iff] at hl
    rw [hl] at hfull
    simp at hfull
    omega
  | some v =>
    have hdl := List.dropLast_append_getLast? v hl
    have hv : v.page ∈ st.pages := by
      unfold LRUState.pages
      rw [← hdl]
      simp
    obtain ⟨s, hs⟩ := h.pos_dom _ hv
    obtain ⟨_, hlt, hd⟩ := h.pos_display _ _ hs
    have hsC : s < C := by
      have := h.next_eq
      omega
    refine ⟨v, s, hdl.symm, hs, hsC, hd, ?_⟩
    have hsl : s < st.framesDisplay.length := by rw [h.display_len]; exact hsC
    simp [step, hf, hfull, hl, hs, hsl, replaceState]

theorem step_fault_fill {C : Nat} {st : LRUState} (h : WF C st) {p : Int}
    (hp : p ∉ st.pages) (hlt : st.pageList.length < C) :
    step C st p = .ok (fillState st p,
      { isHit := false, evicted := none,
        printed := printedFrames (st.framesDisplay.set st.nextInsertIndex p) }) := by
  have hf := (h.find_none_iff p).2 hp
  have hne : ¬ st.pageList.length = C := by omega
  have hsl : st.nextInsertIndex < st.framesDisplay.length := by
    rw [h.display_len, h.next_eq]; exact hlt
  simp [step, hf, hne, hsl, fillState]

/-! ## Preservation of the invariant -/

theorem WF.hit {C : Nat} {st : LRUState} (h : WF C st) {n : Node}
    (hn : n ∈ st.pageList) : WF C (hitState st n) := by
  have hperm : (n :: st.pageList.erase n).Perm st.pageList := (List.perm_cons_erase hn).symm
  have hpages : (hitState st n).pages.Perm st.pages := hperm.map Node.page
  have hmem : ∀ m, m ∈ (hitState st n).pageList ↔ m ∈ st.pageList := fun m => hperm.mem_iff
  have hlen : (hitState st n).pageList.length = st.pageList.length := hperm.length_eq
  refine ⟨(hperm.map Node.handle).nodup_iff.2 h.handles_nodup, hpages.nodup_iff.2 h.pages_nodup,
    fun m hm => h.handles_lt m ((hmem m).1 hm), fun p it => (h.iter_iff p it).trans (hmem _).symm,
    h.display_len, by rw [hlen]; exact h.next_eq, by rw [hlen]; exact h.size_le,
    fun p hp => h.pos_dom p (hpages.mem_iff.1 hp), ?_, h.display_pos, h.display_empty⟩
  intro p s hps
  obtain ⟨h1, h2, h3⟩ := h.pos_display p s hps
  exact ⟨hpages.mem_iff.2 h1, h2, h3⟩

theorem WF.fill {C : Nat} {st : LRUState} (h : WF C st) {p : Int}
    (hp : p ∉ st.pages) (hlt : st.pageList.length < C) : WF C (fillState st p) := by
  have hnext := h.next_eq
  have hfp : st.framePositions.find p = none := by
    cases hf : st.framePositions.find p with
    | none => rfl
    | some s => exact absurd (h.pos_display p s hf).1 hp
  constructor
  · show (st.nextHandle :: st.pageList.map Node.handle).Nodup
    refine List.nodup_cons.2 ⟨?_, h.handles_nodup⟩
    intro hm
    obtain ⟨n, hn, he⟩ := List.mem_map.1 hm
    have := h.handles_lt n hn
    omega
  · show (p :: st.pages).Nodup
    exact List.nodup_cons.2 ⟨hp, h.pages_nodup⟩
  · intro n hn
    show n.handle < st.nextHandle + 1
    rcases List.mem_cons.1 hn with e | e
    · subst e; exact Nat.lt_succ_self _
    · exact Nat.lt_succ_of_lt (h.handles_lt n e)
  · intro q it
    show (st.pageListIteratorMap.assign p st.nextHandle).find q = some it ↔
      Node.mk it q ∈ Node.mk st.nextHandle p :: st.pageList
    rw [PageMap.find_assign, List.mem_cons]
    by_cases hq : q = p
    · subst hq
      have hno : ∀ it, Node.mk it q ∉ st.pageList := fun it hm =>
        hp ((mem_pages_iff st q).2 ⟨it, hm⟩)
      simp [hno]
      exact eq_comm
    · have : ¬ Node.mk it q = Node.mk st.nextHandle p := by
        intro e; exact hq (congrArg Node.page e)
      simp [hq, this, h.iter_iff]
  · show (st.framesDisplay.set st.nextInsertIndex p).length = C
    rw [List.length_set]; exact h.display_len
  · show st.nextInsertIndex + 1 = (Node.mk st.nextHandle p :: st.pageList).length
    simp [hnext]
  · show (Node.mk st.nextHandle p :: st.pageList).length ≤ C
    simp; omega
  · intro q hq
    show ∃ s, (st.framePositions.assign p st.nextInsertIndex).find q = some s
    rw [PageMap.find_assign]
    by_cases hqp : q = p
    · exact ⟨st.nextInsertIndex, by simp [hqp]⟩
    · have hq2 : q ∈ st.pages := by
        rcases List.mem_cons.1 (show q ∈ p :: st.pages from hq) with e | e
        · exact absurd e hqp
        · exact e
      obtain ⟨s, hs⟩ := h.pos_dom q hq2
      exact ⟨s, by simp [hqp, hs]⟩
  · intro q s hqs
    have hqs : (st.framePositions.assign p st.nextInsertIndex).find q = some s := hqs
    show q ∈ p :: st.pages ∧ s < st.nextInsertIndex + 1 ∧
      (st.framesDisplay.set st.nextInsertIndex p)[s]? = some q
    rw [PageMap.find_assign] at hqs
    by_cases hqp : q = p
    · subst hqp
      simp at hqs
      subst hqs
      refine ⟨List.mem_cons_self _ _, Nat.lt_succ_self _, ?_⟩
      rw [List.getElem?_set_self]
      rw [h.display_len]; omega
    · simp [hqp] at hqs
      obtain ⟨h1, h2, h3⟩ := h.pos_display q s hqs
      refine ⟨List.mem_cons_of_mem _ h1, Nat.lt_succ_of_lt h2, ?_⟩
      rw [List.getElem?_set_ne (by omega)]
      exact h3
  · intro s hs
    have hs : s < st.nextInsertIndex + 1 := hs
    show ∃ q, (st.framePositions.assign p st.nextInsertIndex).find q = some s
    by_cases he : s = st.nextInsertIndex
    · exact ⟨p, by rw [PageMap.find_assign]; simp [he]⟩
    · obtain ⟨q, hq⟩ := h.display_pos s (by omega)
      refine ⟨q, ?_⟩
      rw [PageMap.find_assign]
      have : q ≠ p := by
        rintro rfl
        rw [hfp] at hq
        exact Option.noConfusion hq
      simp [this, hq]
  · intro s hs hsC
    have hs : st.nextInsertIndex + 1 ≤ s := hs
    show (st.framesDisplay.set st.nextInsertIndex p)[s]? = some (-1)
    rw [List.getElem?_set_ne (by omega)]
    exact h.display_empty s (by omega) hsC

theorem WF.replace {C : Nat} {st : LRUState} (h : WF C st) {p : Int} {v : Node} {s : Nat}
    {init : List Node} (hp : p ∉ st.pages) (hl : st.pageList = init ++ [v])
    (hs : st.framePositions.find v.page = some s) : WF C (replaceState st v s p) := by
  have hnext := h.next_eq
  have hdl : st.pageList.dropLast = init := by rw [hl]; simp
  have hpages : st.pages = init.map Node.page ++ [v.page] := by
    unfold LRUState.pages; rw [hl]; simp
  have hlen : st.pageList.length = init.length + 1 := by rw [hl]; simp
  have hnd := h.pages_nodup
  rw [hpages] at hnd
  have hvi : v.page ∉ init.map Node.page := by
    intro hm
    exact (List.nodup_append.1 hnd).2.2 hm (List.mem_singleton_self _) 
  have hndi : (init.map Node.page).Nodup := (List.nodup_append.1 hnd).1
  have hpi : p ∉ init.map Node.page := fun hm => hp (by rw [hpages]; simp [hm])
  have hpv : p ≠ v.page := fun e => hp (by rw [hpages]; simp [e])
  have hsub : init.Sublist st.pageList := by rw [hl]; exact List.sublist_append_left _ _
  have hfp : st.framePositions.find p = none := by
    cases hf : st.framePositions.find p with
    | none => rfl
    | some s => exact absurd (h.pos_display p s hf).1 hp
  obtain ⟨_, hsn, hsd⟩ := h.pos_display _ _ hs
  have hst : replaceState st v s p =
      { pageList := Node.mk st.nextHandle p :: init
        pageListIteratorMap := (st.pageListIteratorMap.erase v.page).assign p st.nextHandle
        framesDisplay := st.framesDisplay.set s p
        framePositions := (st.framePositions.erase v.page).assign p s
        pageFaults := st.pageFaults + 1
        nextInsertIndex := st.nextInsertIndex
        nextHandle := st.nextHandle + 1 } := by
    simp [replaceState, pushFront, hdl]
  rw [hst]
  constructor
  · show (st.nextHandle :: init.map Node.handle).Nodup
    refine List.nodup_cons.2 ⟨?_, (hsub.map Node.handle).nodup h.handles_nodup⟩
    intro hm
    obtain ⟨n, hn, he⟩ := List.mem_map.1 hm
    have := h.handles_lt n (hsub.subset hn)
    omega
  · show (p :: init.map Node.page).Nodup
    exact List.nodup_cons.2 ⟨hpi, hndi⟩
  · intro n hn
    show n.handle < st.nextHandle + 1
    rcases List.mem_cons.1 hn with e | e
    · subst e; exact Nat.lt_succ_self _
    · exact Nat.lt_succ_of_lt (h.handles_lt n (hsub.subset e))
  · intro q it
    show ((st.pageListIteratorMap.erase v.page).assign p st.nextHandle).find q = some it ↔
      Node.mk it q ∈ Node.mk st.nextHandle p :: init
    rw [PageMap.find_assign, PageMap.find_erase, List.mem_cons]
    by_cases hq : q = p
    · subst hq
      have hno : Node.mk it q ∉ init := fun hm =>
        hpi (List.mem_map.2 ⟨_, hm, rfl⟩)
      simp [hno]
      exact eq_comm
    · have h1 : ¬ Node.mk it q = Node.mk st.nextHandle p := by
        intro e; exact hq (congrArg Node.page e)
      by_cases hqv : q = v.page
      · subst hqv
        have hno : Node.mk it v.page ∉ init := fun hm =>
          hvi (List.mem_map.2 ⟨_, hm, rfl⟩)
        simp [hq, h1, hno]
      · have h2 : Node.mk it q ∈ st.pageList ↔ Node.mk it q ∈ init := by
          rw [hl, List.mem_append, List.mem_singleton]
          constructor
          · rintro (hm | e)
            · exact hm
            · exact absurd (congrArg Node.page e) hqv
          · exact Or.inl
        simp [hq, hqv, h1, h.iter_iff, h2]
  · show (st.framesDisplay.set s p).length = C
    rw [List.length_set]; exact h.display_len
  · show st.nextInsertIndex = (Node.mk st.nextHandle p :: init).length
    simp [hnext, hlen]
  · show (Node.mk st.nextHandle p :: init).length ≤ C
    have := h.size_le
    simp; omega
  · intro q hq
    have hq : q ∈ p :: init.map Node.page := hq
    show ∃ t, ((st.framePositions.erase v.page).assign p s).find q = some t
    rw [PageMap.find_assign, PageMap.find_erase]
    by_cases hqp : q = p
    · exact ⟨s, by simp [hqp]⟩
    · have hq2 : q ∈ init.map Node.page := by
        rcases List.mem_cons.1 hq with e | e
        · exact absurd e hqp
        · exact e
      have hqv : q ≠ v.page := fun e => hvi (e ▸ hq2)
      obtain ⟨t, ht⟩ := h.pos_dom q (by rw [hpages]; simp [hq2])
      exact ⟨t, by simp [hqp, hqv, ht]⟩
  · intro q t hqt
    have hqt : ((st.framePositions.erase v.page).assign p s).find q = some t := hqt
    show q ∈ p :: init.map Node.page ∧ t < st.nextInsertIndex ∧
      (st.framesDisplay.set s p)[t]? = some q
    rw [PageMap.find_assign, PageMap.find_erase] at hqt
    by_cases hqp : q = p
    · subst hqp
      simp at hqt
      subst hqt
      refine ⟨List.mem_cons_self _ _, hsn, ?_⟩
      rw [List.getElem?_set_self]
      rw [h.display_len]; have := h.size_le; omega
    · by_cases hqv : q = v.page
      · simp [hqp, hqv] at hqt
        exact absurd hqt (by simp [hpv.symm, ← hqv, hqp])
      · simp [hqp, hqv] at hqt
        obtain ⟨h1, h2, h3⟩ := h.pos_display q t hqt
        have hts : s ≠ t := by
          rintro rfl
          rw [hsd] at h3
          exact hqv (Option.some.inj h3).symm
        refine ⟨List.mem_cons_of_mem _ ?_, h2, ?_⟩
        · rw [hpages, List.mem_append, List.mem_singleton] at h1
          rcases h1 with e | e
          · exact e
          · exact absurd e hqv
        · rw [List.getElem?_set_ne hts]
          exact h3
  · intro t ht
    have ht : t < st.nextInsertIndex := ht
    show ∃ q, ((st.framePositions.erase v.page).assign p s).find q = some t
    by_cases he : t = s
    · exact ⟨p, by rw [PageMap.find_assign]; simp [he]⟩
    · obtain ⟨q, hq⟩ := h.display_pos t ht
      refine ⟨q, ?_⟩
      rw [PageMap.find_assign, PageMap.find_erase]
      have h1 : q ≠ p := by
        rintro rfl
        rw [hfp] at hq
        exact Option.noConfusion hq
      have h2 : q ≠ v.page := by
        rintro rfl
        rw [hs] at hq
        exact he (Option.some.inj hq).symm
      simp [h1, h2, hq]
  · intro t ht htC
    have ht : st.nextInsertIndex ≤ t := ht
    show (st.framesDisplay.set s p)[t]? = some (-1)
    rw [List.getElem?_set_ne (by omega)]
    exact h.display_empty t ht htC

/-- Under the invariant, with a capacity of at least one, an iteration ends
normally and re-establishes the invariant. -/
theorem step_ok {C : Nat} (hC : 1 ≤ C) {st : LRUState} (h : WF C st) (p : Int) :
    ∃ st' r, step C st p = .ok (st', r) ∧ WF C st' := by
  by_cases hp : p ∈ st.pages
  · obtain ⟨it, hit, hstep⟩ := step_hit h hp
    exact ⟨_, _, hstep, h.hit hit⟩
  · by_cases hfull : st.pageList.length = C
    · obtain ⟨v, s, hl, hs, _, _, hstep⟩ := step_fault_full h hC hp hfull
      exact ⟨_, _, hstep, h.replace hp hl hs⟩
    · have hlt : st.pageList.length < C := lt_of_le_of_ne h.size_le hfull
      exact ⟨_, _, step_fault_fill h hp hlt, h.fill hp hlt⟩

/-! ## The loop as a whole -/

theorem runSteps_append (N : Int) (st : LRUState) (l₁ l₂ : List Int) :
    runSteps N st (l₁ ++ l₂) =
      match runSteps N st l₁ with
      | .error e => .error e
      | .ok (st₁, rs₁) =>
        match runSteps N st₁ l₂ with
        | .error e => .error e
        | .ok (st₂, rs₂) => .ok (st₂, rs₁ ++ rs₂) := by
  induction l₁ generalizing st with
  | nil =>
    simp only [List.nil_append, runSteps]
    cases runSteps N st l₂ with
    | error e => rfl
    | ok pr => rfl
  | cons a tl ih =>
    rw [List.cons_append]
    simp only [runSteps]
    cases hs : step N st a with
    | error e => rfl
    | ok pr =>
      obtain ⟨st', r⟩ := pr
      simp only [ih]
      cases runSteps N st' tl with
      | error e => rfl
      | ok pr₁ =>
        obtain ⟨st₁, rs₁⟩ := pr₁
        simp only
        cases runSteps N st₁ l₂ with
        | error e => rfl
        | ok pr₂ => rfl

theorem runSteps_ok {C : Nat} (hC : 1 ≤ C) (refs : List Int) {st : LRUState} (h : WF C st) :
    ∃ st' rs, runSteps C st refs = .ok (st', rs) ∧ WF C st' ∧ rs.length = refs.length := by
  induction refs generalizing st with
  | nil => exact ⟨st, [], rfl, h, rfl⟩
  | cons a tl ih =>
    obtain ⟨st₁, r, hs, h₁⟩ := step_ok hC h a
    obtain ⟨st₂, rs, hr, h₂, hlen⟩ := ih h₁
    exact ⟨st₂, r :: rs, by simp [runSteps, hs, hr], h₂, by simp [hlen]⟩

theorem stateAt_ok {C : Nat} (hC : 1 ≤ C) (refs : List Int) (i : Nat) :
    ∃ st, stateAt C refs i = .ok st ∧ WF C st := by
  obtain ⟨st, rs, hr, h, _⟩ := runSteps_ok hC (refs.take i) (wf_initState C)
  exact ⟨st, by simp [stateAt, hr], h⟩

/-- Iteration `i` of a run with capacity `C ≥ 1`: it starts from the state
`stateAt C refs i`, ends normally in the state `stateAt C refs (i + 1)`, and
its record is the `i`-th one of the output. -/
theorem run_iteration {C : Nat} (hC : 1 ≤ C) (refs : List Int) (i : Nat)
    (hi : i < refs.length) :
    ∃ st st' r out, stateAt C refs i = .ok st ∧ WF C st ∧
      step C st refs[i] = .ok (st', r) ∧ WF C st' ∧
      stateAt C refs (i + 1) = .ok st' ∧
      simulateLRU C refs = .ok out ∧ out.steps[i]? = some r := by
  obtain ⟨st, rs, hr, h, hlen⟩ := runSteps_ok hC (refs.take i) (wf_initState C)
  obtain ⟨st', r, hs, h'⟩ := step_ok hC h refs[i]
  obtain ⟨st'', rs', hr', _, _⟩ := runSteps_ok hC (refs.drop (i + 1)) h'
  have hsplit : refs = refs.take i ++ (refs[i] :: refs.drop (i + 1)) := by
    rw [← List.drop_eq_getElem_cons hi, List.take_append_drop]
  have hfull : runSteps C (initState C) refs = .ok (st'', rs ++ r :: rs') := by
    rw [hsplit, runSteps_append, hr]
    simp only [runSteps, hs, hr']
  have hnext : runSteps C (initState C) (refs.take (i + 1)) = .ok (st', rs ++ [r]) := by
    rw [List.take_succ, List.getElem?_eq_getElem hi, runSteps_append, hr]
    simp only [Option.toList, runSteps, hs]
  have hrl : rs.length = i := by
    rw [hlen, List.length_take]; omega
  refine ⟨st, st', r, { steps := rs ++ r :: rs', total := st''.pageFaults },
    by simp [stateAt, hr], h, hs, h', by simp [stateAt, hnext], ?_, ?_⟩
  · have : ¬ ((C : Int) < 0) := by omega
    simp [simulateLRU, this, hfull]
  · show (rs ++ r :: rs')[i]? = some r
    rw [List.getElem?_append_right (by omega)]
    simp [hrl]

/-- The end of a run with capacity `C ≥ 1`: the output has one record per
reference and the total is the counter of the final state. -/
theorem run_final {C : Nat} (hC : 1 ≤ C) (refs : List Int) :
    ∃ st out, stateAt C refs refs.length = .ok st ∧ WF C st ∧
      simulateLRU C refs = .ok out ∧ out.total = st.pageFaults ∧
      out.steps.length = refs.length := by
  obtain ⟨st, rs, hr, h, hlen⟩ := runSteps_ok hC refs (wf_initState C)
  have : ¬ ((C : Int) < 0) := by omega
  exact ⟨st, { steps := rs, total := st.pageFaults }, by simp [stateAt, hr], h,
    by simp [simulateLRU, this, hr], rfl, hlen⟩

theorem stateAt_zero (N : Int) (refs : List Int) : stateAt N refs 0 = .ok (initState N) := by
  simp [stateAt, runSteps]

/-! ## The recency list after an iteration -/

theorem map_page_erase (l : List Node) (n : Node) (hn : n ∈ l)
    (hnd : (l.map Node.page).Nodup) :
    (l.erase n).map Node.page = (l.map Node.page).filter (fun q => decide (q ≠ n.page)) := by
  induction l with
  | nil => simp at hn
  | cons a tl ih =>
    rw [List.map_cons, List.nodup_cons] at hnd
    by_cases ha : a = n
    · subst ha
      have : (tl.map Node.page).filter (fun q => decide (q ≠ a.page)) = tl.map Node.page := by
        rw [List.filter_eq_self]
        intro q hq
        have : q ≠ a.page := fun e => hnd.1 (e ▸ hq)
        simpa using this
      rw [List.erase_cons_head, List.map_cons, List.filter_cons_of_neg (by simp), this]
    · have hn' : n ∈ tl := by
        rcases List.mem_cons.1 hn with e | e
        · exact absurd e.symm ha
        · exact e
      have hne : a.page ≠ n.page := fun e =>
        hnd.1 (e ▸ List.mem_map.2 ⟨n, hn', rfl⟩)
      rw [List.erase_cons_tail (by simpa using ha), List.map_cons, ih hn' hnd.2,
        List.map_cons, List.filter_cons_of_pos (by simpa using hne)]

theorem pages_hitState {C : Nat} {st : LRUState} (h : WF C st) {it : Nat} {p : Int}
    (hn : Node.mk it p ∈ st.pageList) :
    (hitState st (Node.mk it p)).pages = p :: st.pages.filter (fun q => decide (q ≠ p)) := by
  show p :: (st.pageList.erase (Node.mk it p)).map Node.page = _
  rw [map_page_erase st.pageList _ hn h.pages_nodup]
  rfl

theorem pages_replaceState (st : LRUState) (v : Node) (s : Nat) (p : Int) :
    (replaceState st v s p).pages = p :: st.pages.dropLast := by
  show p :: st.pageList.dropLast.map Node.page = _
  rw [List.map_dropLast]
  rfl

theorem pages_fillState (st : LRUState) (p : Int) :
    (fillState st p).pages = p :: st.pages := rfl

/-- The three ways an iteration can go under the invariant. -/
theorem step_cases {C : Nat} (hC : 1 ≤ C) {st : LRUState} (h : WF C st) (p : Int) :
    (p ∈ st.pages ∧ ∃ it, Node.mk it p ∈ st.pageList ∧
      step C st p = .ok (hitState st (Node.mk it p),
        { isHit := true, evicted := none, printed := printedFrames st.framesDisplay })) ∨
    (p ∉ st.pages ∧ st.pageList.length = C ∧ ∃ v s,
      st.pageList = st.pageList.dropLast ++ [v] ∧ st.framePositions.find v.page = some s ∧
      s < C ∧ st.framesDisplay[s]? = some v.page ∧
      step C st p = .ok (replaceState st v s p,
        { isHit := false, evicted := some v.page,
          printed := printedFrames (st.framesDisplay.set s p) })) ∨
    (p ∉ st.pages ∧ st.pageList.length < C ∧
      step C st p = .ok (fillState st p,
        { isHit := false, evicted := none,
          printed := printedFrames (st.framesDisplay.set st.nextInsertIndex p) })) := by
  by_cases hp : p ∈ st.pages
  · exact Or.inl ⟨hp, step_hit h hp⟩
  · by_cases hfull : st.pageList.length = C
    · exact Or.inr (Or.inl ⟨hp, hfull, step_fault_full h hC hp hfull⟩)
    · have hlt : st.pageList.length < C := lt_of_le_of_ne h.size_le hfull
      exact Or.inr (Or.inr ⟨hp, hlt, step_fault_fill h hp hlt⟩)

/-- After an iteration on `p` the recency list is `p` followed by a sublist of
the previous one that does not contain `p`. -/
theorem pages_step {C : Nat} (hC : 1 ≤ C) {st st' : LRUState} {r : StepRecord}
    (h : WF C st) {p : Int} (hs : step C st p = .ok (st', r)) :
    ∃ rest, st'.pages = p :: rest ∧ rest.Sublist st.pages ∧ p ∉ rest := by
  rcases step_cases hC h p with ⟨_, it, hit, hstep⟩ | ⟨hp, _, v, s, _, _, _, _, hstep⟩ |
    ⟨hp, _, hstep⟩
  · rw [hstep] at hs
    obtain ⟨rfl, -⟩ := Prod.mk.inj (Except.ok.inj hs)
    exact ⟨_, pages_hitState h hit, List.filter_sublist _, by simp [List.mem_filter]⟩
  · rw [hstep] at hs
    obtain ⟨rfl, -⟩ := Prod.mk.inj (Except.ok.inj hs)
    exact ⟨_, pages_replaceState st v s p, List.dropLast_sublist _,
      fun hm => hp (List.dropLast_subset _ hm)⟩
  · rw [hstep] at hs
    obtain ⟨rfl, -⟩ := Prod.mk.inj (Except.ok.inj hs)
    exact ⟨_, pages_fillState st p, List.Sublist.refl _, hp⟩

/-! ## Most recent references -/

theorem lastRef_lt (refs : List Int) (p : Int) (i j : Nat)
    (h : lastRef refs p i = some j) : j < i := by
  induction i with
  | zero => simp [lastRef] at h
  | succ i ih =>
    by_cases he : refs[i]? = some p
    · simp [lastRef, he] at h; omega
    · simp only [lastRef, he, if_false] at h
      have := ih h; omega

theorem recencyOrdered_stateAt {C : Nat} (hC : 1 ≤ C) (refs : List Int) (i : Nat)
    (hi : i ≤ refs.length) :
    ∃ st, stateAt C refs i = .ok st ∧ RecencyOrdered refs i st.pages := by
  induction i with
  | zero =>
    refine ⟨initState C, stateAt_zero _ _, ?_⟩
    simp [RecencyOrdered, initState, LRUState.pages]
  | succ i ih =>
    obtain ⟨st₀, hst₀, hmem, hpw⟩ := ih (by omega)
    obtain ⟨st, st', r, _, hst, hwf, hstep, _, hst', _⟩ := run_iteration hC refs i (by omega)
    rw [hst₀] at hst
    obtain rfl := Except.ok.inj hst
    obtain ⟨rest, hpages, hsub, hp⟩ := pages_step hC hwf hstep
    have hi' : i < refs.length := by omega
    have hcur : refs[i]? = some refs[i] := List.getElem?_eq_getElem hi'
    have hother : ∀ q ∈ rest, lastRef refs q (i + 1) = lastRef refs q i := by
      intro q hq
      have hne : ¬ refs[i]? = some q := by
        rw [hcur]
        intro e
        exact hp ((Option.some.inj e) ▸ hq)
      simp [lastRef, hne]
    refine ⟨st', hst', ?_, ?_⟩
    · intro q hq
      rw [hpages] at hq
      rcases List.mem_cons.1 hq with e | e
      · exact ⟨i, by simp [lastRef, hcur, e]⟩
      · obtain ⟨j, hj⟩ := hmem q (hsub.subset e)
        exact ⟨j, by rw [hother q e]; exact hj⟩
    · rw [hpages, List.pairwise_cons]
      constructor
      · intro q hq
        obtain ⟨j, hj⟩ := hmem q (hsub.subset hq)
        exact ⟨i, j, by simp [lastRef, hcur], by rw [hother q hq]; exact hj,
          lastRef_lt _ _ _ _ hj⟩
      · refine (hpw.sublist hsub).imp_of_mem ?_
        intro a b ha hb ⟨ja, jb, h1, h2, h3⟩
        exact ⟨ja, jb, by rw [hother a ha]; exact h1, by rw [hother b hb]; exact h2, h3⟩

/-! ## Eviction chooses the least recently used page -/

/-- C1: for every capacity of at least one and every reference sequence, at
every step that is a fault with the frames full, the page removed is the back
of the recency list, it is resident just before the step, and every other page
resident just before the step has its most recent reference in the preceding
prefix at a strictly later index than the most recent reference of the
victim. -/
theorem C1_evicted_page_is_least_recently_used (numFrames : Int) (hC : 1 ≤ numFrames)
    (refs : List Int) (i : Nat) (hi : i < refs.length) :
    ∃ out st st' r, simulateLRU numFrames refs = .ok out ∧
      stateAt numFrames refs i = .ok st ∧ step numFrames st refs[i] = .ok (st', r) ∧
      out.steps[i]? = some r ∧
      (r.isHit = false → (st.pageList.length : Int) = numFrames →
        ∃ v jv, st.pageList.getLast? = some v ∧ r.evicted = some v.page ∧
          v.page ∈ st.pages ∧ st.pageListIteratorMap.find v.page ≠ none ∧
          v.page ∉ st'.pages ∧
          lastRef refs v.page i = some jv ∧
          ∀ q ∈ st.pages, q ≠ v.page → ∃ jq, lastRef refs q i = some jq ∧ jv < jq) := by
  lift numFrames to ℕ using (by omega)
  have hC' : 1 ≤ numFrames := by omega
  obtain ⟨st, st', r, out, hst, hwf, hstep, hwf', _, hout, hr⟩ :=
    run_iteration hC' refs i hi
  obtain ⟨st₀, hst₀, hmem, hpw⟩ := recencyOrdered_stateAt hC' refs i (by omega)
  rw [hst] at hst₀
  obtain rfl := Except.ok.inj hst₀
  refine ⟨out, st, st', r, hout, hst, hstep, hr, ?_⟩
  intro hfault hfull
  rcases step_cases hC' hwf refs[i] with ⟨_, it, _, hs⟩ | ⟨hp, _, v, s, hl, _, _, _, hs⟩ |
    ⟨_, hlt, _⟩
  · rw [hs] at hstep
    obtain ⟨-, rfl⟩ := Prod.mk.inj (Except.ok.inj hstep)
    exact absurd hfault (by simp)
  · rw [hs] at hstep
    obtain ⟨rfl, rfl⟩ := Prod.mk.inj (Except.ok.inj hstep)
    have hpages : st.pages = st.pages.dropLast ++ [v.page] := by
      unfold LRUState.pages
      rw [← List.map_dropLast]
      conv_lhs => rw [hl]
      simp
    have hv : v.page ∈ st.pages := by rw [hpages]; simp
    obtain ⟨jv, hjv⟩ := hmem _ hv
    have hlast : st.pageList.getLast? = some v := by rw [hl]; simp
    have hnd := hwf.pages_nodup
    rw [hpages] at hnd hpw
    refine ⟨v, jv, hlast, rfl, hv, ?_, ?_, hjv, ?_⟩
    · intro hnone
      exact (hwf.find_none_iff _).1 hnone hv
    · rw [pages_replaceState]
      intro hm
      rcases List.mem_cons.1 hm with e | e
      · exact hp (e ▸ hv)
      · exact (List.nodup_append.1 hnd).2.2 e (List.mem_singleton_self _)
    · intro q hq hne
      rw [hpages, List.mem_append, List.mem_singleton] at hq
      rcases hq with hq | hq
      · obtain ⟨ja, jb, h1, h2, h3⟩ :=
          (List.pairwise_append.1 hpw).2.2 q hq v.page (List.mem_singleton_self _)
        rw [hjv] at h2
        obtain rfl := Option.some.inj h2
        exact ⟨ja, h1, h3⟩
      · exact absurd hq hne
  · exfalso
    have : st.pageList.length = numFrames := by exact_mod_cast hfull
    omega

/-- C1 at capacity 3, references 1 2 3 4 1 2 5, step 3 (the first eviction). -/
theorem C1_evicted_page_is_least_recently_used_witness :
    (1 : Int) ≤ 3 ∧ 3 < [(1 : Int), 2, 3, 4, 1, 2, 5].length ∧
    ∃ out st st' r, simulateLRU 3 [1, 2, 3, 4, 1, 2, 5] = .ok out ∧
      stateAt 3 [1, 2, 3, 4, 1, 2, 5] 3 = .ok st ∧ step 3 st 4 = .ok (st', r) ∧
      out.steps[3]? = some r ∧
      (r.isHit = false → (st.pageList.length : Int) = 3 →
        ∃ v jv, st.pageList.getLast? = some v ∧ r.evicted = some v.page ∧
          v.page ∈ st.pages ∧ st.pageListIteratorMap.find v.page ≠ none ∧
          v.page ∉ st'.pages ∧
          lastRef [1, 2, 3, 4, 1, 2, 5] v.page 3 = some jv ∧
          ∀ q ∈ st.pages, q ≠ v.page →
            ∃ jq, lastRef [1, 2, 3, 4, 1, 2, 5] q 3 = some jq ∧ jv < jq) :=
  ⟨by decide, by decide,
    C1_evicted_page_is_least_recently_used 3 (by decide) [1, 2, 3, 4, 1, 2, 5] 3 (by decide)⟩

/-! ## The fault counter -/

theorem step_counter {C : Nat} (hC : 1 ≤ C) {st st' : LRUState} {r : StepRecord}
    (h : WF C st) {p : Int} (hs : step C st p = .ok (st', r)) :
    (r.isHit = true ↔ p ∈ st.pages) ∧
    (r.isHit = true ↔ st.pageListIteratorMap.find p ≠ none) ∧
    st'.pageFaults = st.pageFaults + (if r.isHit then 0 else 1) := by
  have hfind := h.find_none_iff p
  rcases step_cases hC h p with ⟨hp, it, _, hstep⟩ | ⟨hp, _, v, s, _, _, _, _, hstep⟩ |
    ⟨hp, _, hstep⟩
  · rw [hstep] at hs
    obtain ⟨rfl, rfl⟩ := Prod.mk.inj (Except.ok.inj hs)
    refine ⟨by simp [hp], ?_, by simp [hitState]⟩
    simp only [true_iff]
    exact fun hn => hfind.1 hn hp
  · rw [hstep] at hs
    obtain ⟨rfl, rfl⟩ := Prod.mk.inj (Except.ok.inj hs)
    exact ⟨by simp [hp], by simp [hfind.2 hp], by simp [replaceState, pushFront]⟩
  · rw [hstep] at hs
    obtain ⟨rfl, rfl⟩ := Prod.mk.inj (Except.ok.inj hs)
    exact ⟨by simp [hp], by simp [hfind.2 hp], by simp [fillState, pushFront]⟩

theorem runSteps_counter {C : Nat} (hC : 1 ≤ C) (refs : List Int) {st st' : LRUState}
    {rs : List StepRecord} (h : WF C st) (hr : runSteps C st refs = .ok (st', rs)) :
    st'.pageFaults = st.pageFaults + rs.countP (fun r => !r.isHit) := by
  induction refs generalizing st rs with
  | nil =>
    simp only [runSteps] at hr
    obtain ⟨rfl, rfl⟩ := Prod.mk.inj (Except.ok.inj hr)
    simp
  | cons a tl ih =>
    obtain ⟨st₁, r, hs, h₁⟩ := step_ok hC h a
    obtain ⟨st₂, rs₂, hr₂, _, _⟩ := runSteps_ok hC tl h₁
    simp only [runSteps, hs, hr₂] at hr
    obtain ⟨rfl, rfl⟩ := Prod.mk.inj (Except.ok.inj hr)
    rw [ih h₁ hr₂, (step_counter hC h hs).2.2, List.countP_cons]
    cases r.isHit
    · simp; omega
    · simp

theorem stateAt_counter {C : Nat} (hC : 1 ≤ C) (refs : List Int) (k : Nat)
    (hk : k ≤ refs.length) :
    ∃ st, stateAt C refs k = .ok st ∧
      st.pageFaults = ((List.range k).filter (isFaultStep C refs)).length := by
  induction k with
  | zero => exact ⟨initState C, stateAt_zero _ _, by simp [initState]⟩
  | succ k ih =>
    obtain ⟨st₀, hst₀, hcnt⟩ := ih (by omega)
    have hk' : k < refs.length := by omega
    obtain ⟨st, st', r, _, hst, hwf, hstep, _, hst', _⟩ := run_iteration hC refs k hk'
    rw [hst₀] at hst
    obtain rfl := Except.ok.inj hst
    obtain ⟨_, h2, h3⟩ := step_counter hC hwf hstep
    refine ⟨st', hst', ?_⟩
    have hfs : isFaultStep C refs k = !r.isHit := by
      simp only [isFaultStep, hst₀, List.getElem?_eq_getElem hk']
      cases hr : r.isHit with
      | true =>
        have := h2.1 hr
        cases hf : st₀.pageListIteratorMap.find refs[k] with
        | none => exact absurd hf this
        | some x => rfl
      | false =>
        cases hf : st₀.pageListIteratorMap.find refs[k] with
        | none => rfl
        | some x =>
          have := h2.2 (by rw [hf]; exact Option.noConfusion)
          rw [hr] at this
          exact Bool.noConfusion this
    rw [h3, hcnt, List.range_succ, List.filter_append, List.length_append]
    cases hr : r.isHit <;> simp [hfs, hr]

/-- C2: for every capacity of at least one and every reference sequence, the
total written by `simulateLRU` is the number of steps whose page was not
resident just before the step (equally, the number of records that are not
hits), and at every step the counter grows by exactly 1 on a fault and by 0 on
a hit, so it never decreases. -/
theorem C2_fault_total_counts_non_hit_steps (numFrames : Int) (hC : 1 ≤ numFrames)
    (refs : List Int) :
    ∃ out, simulateLRU numFrames refs = .ok out ∧
      out.total = countFaultSteps numFrames refs ∧
      out.total = out.steps.countP (fun r => !r.isHit) ∧
      ∀ i (hi : i < refs.length), ∃ st st' r,
        stateAt numFrames refs i = .ok st ∧ stateAt numFrames refs (i + 1) = .ok st' ∧
        step numFrames st refs[i] = .ok (st', r) ∧ out.steps[i]? = some r ∧
        (r.isHit = true ↔ st.pageListIteratorMap.find refs[i] ≠ none) ∧
        (r.isHit = true ↔ refs[i] ∈ st.pages) ∧
        (r.isHit = true → st'.pageFaults = st.pageFaults) ∧
        (r.isHit = false → st'.pageFaults = st.pageFaults + 1) ∧
        st.pageFaults ≤ st'.pageFaults := by
  lift numFrames to ℕ using (by omega)
  have hC' : 1 ≤ numFrames := by omega
  obtain ⟨stf, out, hstf, _, hout, htot, _⟩ := run_final hC' refs
  obtain ⟨stc, hstc, hcnt⟩ := stateAt_counter hC' refs refs.length le_rfl
  rw [hstf] at hstc
  obtain rfl := Except.ok.inj hstc
  refine ⟨out, hout, by rw [htot, hcnt]; rfl, ?_, ?_⟩
  · obtain ⟨st', rs, hr, _, _⟩ := runSteps_ok hC' refs (wf_initState numFrames)
    have hcount := runSteps_counter hC' refs (wf_initState numFrames) hr
    have hneg : ¬ ((numFrames : Int) < 0) := by omega
    simp only [simulateLRU, hneg, if_false, hr] at hout
    obtain rfl := Except.ok.inj hout
    simpa [initState] using hcount
  · intro i hi
    obtain ⟨st, st', r, out', hst, hwf, hstep, _, hst', hout', hr⟩ :=
      run_iteration hC' refs i hi
    rw [hout] at hout'
    obtain rfl := Except.ok.inj hout'
    obtain ⟨h1, h2, h3⟩ := step_counter hC' hwf hstep
    refine ⟨st, st', r, hst, hst', hstep, hr, h2, h1, ?_, ?_, ?_⟩
    · intro hh; simp [h3, hh]
    · intro hh; simp [h3, hh]
    · omega

/-- C2 at capacity 2 and references 1 2 1 3. -/
theorem C2_fault_total_counts_non_hit_steps_witness :
    (1 : Int) ≤ 2 ∧
    ∃ out, simulateLRU 2 [1, 2, 1, 3] = .ok out ∧
      out.total = countFaultSteps 2 [1, 2, 1, 3] ∧
      out.total = out.steps.countP (fun r => !r.isHit) ∧
      ∀ i (hi : i < [(1 : Int), 2, 1, 3].length), ∃ st st' r,
        stateAt 2 [1, 2, 1, 3] i = .ok st ∧ stateAt 2 [1, 2, 1, 3] (i + 1) = .ok st' ∧
        step 2 st [(1 : Int), 2, 1, 3][i] = .ok (st', r) ∧ out.steps[i]? = some r ∧
        (r.isHit = true ↔ st.pageListIteratorMap.find [(1 : Int), 2, 1, 3][i] ≠ none) ∧
        (r.isHit = true ↔ [(1 : Int), 2, 1, 3][i] ∈ st.pages) ∧
        (r.isHit = true → st'.pageFaults = st.pageFaults) ∧
        (r.isHit = false → st'.pageFaults = st.pageFaults + 1) ∧
        st.pageFaults ≤ st'.pageFaults :=
  ⟨by decide, C2_fault_total_counts_non_hit_steps 2 (by decide) [1, 2, 1, 3]⟩

/-! ## The number of occupied frames -/

theorem step_printed {C : Nat} (hC : 1 ≤ C) {st st' : LRUState} {r : StepRecord}
    (h : WF C st) {p : Int} (hs : step C st p = .ok (st', r)) :
    r.printed = printedFrames st'.framesDisplay := by
  rcases step_cases hC h p with ⟨_, it, _, hstep⟩ | ⟨_, _, v, s, _, _, _, _, hstep⟩ |
    ⟨_, _, hstep⟩ <;>
  · rw [hstep] at hs
    obtain ⟨rfl, rfl⟩ := Prod.mk.inj (Except.ok.inj hs)
    rfl

/-- The resident pages are pages of the prefix read so far, and as long as a
frame is free every page of the prefix is resident. -/
theorem seen_stateAt {C : Nat} (hC : 1 ≤ C) (refs : List Int) (i : Nat)
    (hi : i ≤ refs.length) :
    ∃ st, stateAt C refs i = .ok st ∧ (∀ q ∈ st.pages, q ∈ refs.take i) ∧
      (st.pages.length < C → ∀ q ∈ refs.take i, q ∈ st.pages) := by
  induction i with
  | zero =>
    exact ⟨initState C, stateAt_zero _ _, by simp [initState, LRUState.pages], by simp⟩
  | succ i ih =>
    obtain ⟨st₀, hst₀, hsub, hall⟩ := ih (by omega)
    have hi' : i < refs.length := by omega
    obtain ⟨st, st', r, _, hst, hwf, hstep, _, hst', _⟩ := run_iteration hC refs i hi'
    rw [hst₀] at hst
    obtain rfl := Except.ok.inj hst
    have htake : refs.take (i + 1) = refs.take i ++ [refs[i]] := by
      rw [List.take_succ, List.getElem?_eq_getElem hi']; rfl
    have hlen : st₀.pages.length = st₀.pageList.length := by simp [LRUState.pages]
    refine ⟨st', hst', ?_, ?_⟩
    · obtain ⟨rest, hpages, hrest, _⟩ := pages_step hC hwf hstep
      intro q hq
      rw [hpages] at hq
      rw [htake, List.mem_append, List.mem_singleton]
      rcases List.mem_cons.1 hq with e | e
      · exact Or.inr e
      · exact Or.inl (hsub q (hrest.subset e))
    · rcases step_cases hC hwf refs[i] with ⟨hp, it, hit, hs⟩ | ⟨_, hfull, v, s, _, _, _, _, hs⟩ |
        ⟨_, hlt, hs⟩
      · rw [hs] at hstep
        obtain ⟨rfl, -⟩ := Prod.mk.inj (Except.ok.inj hstep)
        have hperm : (hitState st₀ (Node.mk it refs[i])).pages.Perm st₀.pages :=
          (List.perm_cons_erase hit).symm.map Node.page
        intro hl q hq
        rw [hperm.length_eq] at hl
        rw [htake, List.mem_append, List.mem_singleton] at hq
        rw [hperm.mem_iff]
        rcases hq with hq | hq
        · exact hall hl q hq
        · exact hq ▸ hp
      · rw [hs] at hstep
        obtain ⟨rfl, -⟩ := Prod.mk.inj (Except.ok.inj hstep)
        intro hl
        exfalso
        rw [pages_replaceState] at hl
        simp only [List.length_cons, List.length_dropLast] at hl
        omega
      · rw [hs] at hstep
        obtain ⟨rfl, -⟩ := Prod.mk.inj (Except.ok.inj hstep)
        intro _ q hq
        rw [htake, List.mem_append, List.mem_singleton] at hq
        rw [pages_fillState]
        rcases hq with hq | hq
        · exact List.mem_cons_of_mem _ (hall (by omega) q hq)
        · exact hq ▸ List.mem_cons_self _ _

/-- The number of resident pages after `i` references. -/
theorem length_pages_stateAt {C : Nat} (hC : 1 ≤ C) (refs : List Int) (i : Nat)
    (hi : i ≤ refs.length) :
    ∃ st, stateAt C refs i = .ok st ∧ WF C st ∧ (∀ q ∈ st.pages, q ∈ refs.take i) ∧
      st.pages.length = min (refs.take i).dedup.length C := by
  obtain ⟨st, hst, hsub, hall⟩ := seen_stateAt hC refs i hi
  obtain ⟨st₁, hst₁, hwf⟩ := stateAt_ok hC refs i
  rw [hst] at hst₁
  obtain rfl := Except.ok.inj hst₁
  refine ⟨st, hst, hwf, hsub, ?_⟩
  have hle : st.pages.length ≤ (refs.take i).dedup.length :=
    (List.subperm_of_subset hwf.pages_nodup
      (fun q hq => List.mem_dedup.2 (hsub q hq))).length_le
  have hC' : st.pages.length ≤ C := by
    have := hwf.size_le
    simpa [LRUState.pages] using this
  by_cases hlt : st.pages.length < C
  · have hge : (refs.take i).dedup.length ≤ st.pages.length :=
      (List.subperm_of_subset (List.nodup_dedup _)
        (fun q hq => hall hlt q (List.mem_dedup.1 hq))).length_le
    omega
  · omega

theorem length_filter_occupied (l : List Int) (n : Nat) (hn : n ≤ l.length)
    (hocc : ∀ s, s < n → l[s]? ≠ some (-1))
    (hemp : ∀ s, n ≤ s → s < l.length → l[s]? = some (-1)) :
    (printedFrames l).length = n := by
  induction l generalizing n with
  | nil =>
    simp at hn
    simp [printedFrames, hn]
  | cons a tl ih =>
    cases n with
    | zero =>
      have ha : a = -1 := by simpa using hemp 0 le_rfl (by simp)
      have htl := ih 0 (Nat.zero_le _) (fun s hs => absurd hs (Nat.not_lt_zero _))
        (fun s _ hs => by simpa using hemp (s + 1) (Nat.zero_le _) (by simpa using hs))
      simp only [printedFrames] at htl ⊢
      rw [List.filter_cons_of_neg (by simp [ha])]
      exact htl
    | succ m =>
      have ha : a ≠ -1 := by simpa using hocc 0 (Nat.succ_pos _)
      have htl := ih m (by simpa using hn)
        (fun s hs => by simpa using hocc (s + 1) (by omega))
        (fun s hs hs' => by simpa using hemp (s + 1) (by omega) (by simpa using hs'))
      simp only [printedFrames] at htl ⊢
      rw [List.filter_cons_of_pos (by simpa using ha), List.length_cons, htl]

theorem length_printed_le (l : List Int) : (printedFrames l).length ≤ l.length :=
  List.length_filter_le _ _

/-- When `-1` is not resident, the printed line has one entry per resident
page. -/
theorem length_printed_of_wf {C : Nat} {st : LRUState} (h : WF C st)
    (hneg : (-1 : Int) ∉ st.pages) :
    (printedFrames st.framesDisplay).length = st.pages.length := by
  have hlen : st.pages.length = st.pageList.length := by simp [LRUState.pages]
  rw [hlen, ← h.next_eq]
  apply length_filter_occupied
  · rw [h.display_len, h.next_eq]; exact h.size_le
  · intro s hs he
    obtain ⟨p, hp⟩ := h.display_pos s hs
    obtain ⟨h1, _, h3⟩ := h.pos_display p s hp
    rw [he] at h3
    exact hneg ((Option.some.inj h3) ▸ h1)
  · intro s hs hs'
    exact h.display_empty s hs (by rw [← h.display_len]; exact hs')

/-- C3 (as stated) fails when the page `-1` is referenced: with capacity 1 and
the single reference `-1`, step 0 prints no entry although one distinct page
has been referenced and one frame is available. -/
theorem C3_occupied_slots_counterexample :
    ∃ out r, simulateLRU 1 [-1] = .ok out ∧ out.steps[0]? = some r ∧
      r.printed.length = 0 ∧ min (([-1] : List Int).take (0 + 1)).dedup.length 1 = 1 :=
  ⟨{ steps := [⟨false, none, []⟩], total := 1 }, ⟨false, none, []⟩, rfl, rfl, rfl, by decide⟩

/-- C3 (amended): for every capacity of at least one, every reference sequence
and every step `i`, the number of entries printed at step `i` never exceeds the
capacity, and when `-1` does not occur among the references up to step `i` it
equals the minimum of the number of distinct pages among those references and
the capacity. -/
theorem C3_occupied_slots (numFrames : Int) (hC : 1 ≤ numFrames)
    (refs : List Int) (i : Nat) (hi : i < refs.length) :
    ∃ out st' r, simulateLRU numFrames refs = .ok out ∧
      stateAt numFrames refs (i + 1) = .ok st' ∧ out.steps[i]? = some r ∧
      r.printed = printedFrames st'.framesDisplay ∧
      (r.printed.length : Int) ≤ numFrames ∧
      ((-1 : Int) ∉ refs.take (i + 1) →
        (r.printed.length : Int) = min ((refs.take (i + 1)).dedup.length : Int) numFrames) := by
  lift numFrames to ℕ using (by omega)
  have hC' : 1 ≤ numFrames := by omega
  obtain ⟨st, st', r, out, _, hwf, hstep, hwf', hst', hout, hr⟩ :=
    run_iteration hC' refs i hi
  obtain ⟨st₁, hst₁, _, hsub, hlen⟩ := length_pages_stateAt hC' refs (i + 1) (by omega)
  rw [hst'] at hst₁
  obtain rfl := Except.ok.inj hst₁
  have hpr := step_printed hC' hwf hstep
  refine ⟨out, st', r, hout, hst', hr, hpr, ?_, ?_⟩
  · rw [hpr]
    have := length_printed_le st'.framesDisplay
    rw [hwf'.display_len] at this
    exact_mod_cast this
  · intro hneg
    have hres : (-1 : Int) ∉ st'.pages := fun hm => hneg (hsub _ hm)
    rw [hpr, length_printed_of_wf hwf' hres, hlen]
    push_cast
    rfl

/-- C3 (amended) at capacity 2, references 1 2 3, step 2. -/
theorem C3_occupied_slots_witness :
    (1 : Int) ≤ 2 ∧ 2 < [(1 : Int), 2, 3].length ∧
    ∃ out st' r, simulateLRU 2 [1, 2, 3] = .ok out ∧
      stateAt 2 [1, 2, 3] (2 + 1) = .ok st' ∧ out.steps[2]? = some r ∧
      r.printed = printedFrames st'.framesDisplay ∧
      (r.printed.length : Int) ≤ 2 ∧
      ((-1 : Int) ∉ [(1 : Int), 2, 3].take (2 + 1) →
        (r.printed.length : Int) =
          min (([(1 : Int), 2, 3].take (2 + 1)).dedup.length : Int) 2) :=
  ⟨by decide, by decide, C3_occupied_slots 2 (by decide) [1, 2, 3] 2 (by decide)⟩

/-! ## Stability of the physical slot -/

/-- A page that is resident before and after an iteration keeps its slot. -/
theorem step_slot_stable {C : Nat} (hC : 1 ≤ C) {st st' : LRUState} {r : StepRecord}
    (h : WF C st) {q : Int} (hs : step C st q = .ok (st', r)) {p : Int}
    (hp : p ∈ st.pages) (hp' : p ∈ st'.pages) :
    st'.framePositions.find p = st.framePositions.find p := by
  rcases step_cases hC h q with ⟨_, it, _, hstep⟩ | ⟨hq, _, v, s, hl, _, _, _, hstep⟩ |
    ⟨hq, _, hstep⟩
  · rw [hstep] at hs
    obtain ⟨rfl, -⟩ := Prod.mk.inj (Except.ok.inj hs)
    rfl
  · rw [hstep] at hs
    obtain ⟨rfl, -⟩ := Prod.mk.inj (Except.ok.inj hs)
    have hpq : p ≠ q := fun e => hq (e ▸ hp)
    have hpages : st.pages = st.pages.dropLast ++ [v.page] := by
      unfold LRUState.pages
      rw [← List.map_dropLast]
      conv_lhs => rw [hl]
      simp
    have hnd := h.pages_nodup
    rw [hpages] at hnd
    rw [pages_replaceState] at hp'
    have hpd : p ∈ st.pages.dropLast := by
      rcases List.mem_cons.1 hp' with e | e
      · exact absurd e hpq
      · exact e
    have hpv : p ≠ v.page := fun e =>
      (List.nodup_append.1 hnd).2.2 hpd (e ▸ List.mem_singleton_self _)
    show ((st.framePositions.erase v.page).assign q s).find p = _
    rw [PageMap.find_assign, PageMap.find_erase]
    simp [hpq, hpv]
  · rw [hstep] at hs
    obtain ⟨rfl, -⟩ := Prod.mk.inj (Except.ok.inj hs)
    have hpq : p ≠ q := fun e => hq (e ▸ hp)
    show (st.framePositions.assign q st.nextInsertIndex).find p = _
    rw [PageMap.find_assign]
    simp [hpq]

/-- C4: for every capacity of at least one, every reference sequence, every
page `p` and all steps `i ≤ j`: if `p` is resident after every step from `i` to
`j`, then there is one slot that `framePositions` records for `p` after every
one of those steps, and `framesDisplay` holds `p` at that slot after each of
them. -/
theorem C4_slot_unchanged_while_resident (numFrames : Int) (hC : 1 ≤ numFrames)
    (refs : List Int) (p : Int) (i j : Nat) (hij : i ≤ j) (hj : j < refs.length)
    (hres : ∀ k, i ≤ k → k ≤ j →
      ∃ st, stateAt numFrames refs (k + 1) = .ok st ∧ p ∈ st.pages) :
    ∃ s, ∀ k, i ≤ k → k ≤ j →
      ∃ st, stateAt numFrames refs (k + 1) = .ok st ∧
        st.framePositions.find p = some s ∧ st.framesDisplay[s]? = some p := by
  lift numFrames to ℕ using (by omega)
  have hC' : 1 ≤ numFrames := by omega
  obtain ⟨sti, hsti, hpi⟩ := hres i le_rfl hij
  obtain ⟨sti', hsti', hwfi⟩ := stateAt_ok hC' refs (i + 1)
  rw [hsti] at hsti'
  obtain rfl := Except.ok.inj hsti'
  obtain ⟨s, hs⟩ := hwfi.pos_dom p hpi
  refine ⟨s, ?_⟩
  intro k hik
  induction k, hik using Nat.le_induction with
  | base =>
    intro _
    exact ⟨sti, hsti, hs, (hwfi.pos_display p s hs).2.2⟩
  | succ k hik ih =>
    intro hkj
    obtain ⟨stk, hstk, hfk, _⟩ := ih (by omega)
    obtain ⟨st, st', r, _, hst, hwf, hstep, hwf', hst', _⟩ :=
      run_iteration hC' refs (k + 1) (by omega)
    rw [hstk] at hst
    obtain rfl := Except.ok.inj hst
    obtain ⟨st₂, hst₂, hp₂⟩ := hres (k + 1) (by omega) hkj
    rw [hst'] at hst₂
    obtain rfl := Except.ok.inj hst₂
    have hp₁ : p ∈ stk.pages := (hwf.pos_display p s hfk).1
    have hkeep := step_slot_stable hC' hwf hstep hp₁ hp₂
    rw [hfk] at hkeep
    exact ⟨st', hst', hkeep, (hwf'.pos_display p s hkeep).2.2⟩

/-- C4 at capacity 2, references 1 2 1 3, page 1, steps 0 to 3: page 1 stays
resident (page 2 is the one evicted at step 3). -/
theorem C4_slot_unchanged_while_resident_witness :
    ∃ s, ∀ k, 0 ≤ k → k ≤ 3 →
      ∃ st, stateAt 2 [1, 2, 1, 3] (k + 1) = .ok st ∧
        st.framePositions.find 1 = some s ∧ st.framesDisplay[s]? = some 1 :=
  C4_slot_unchanged_while_resident 2 (by decide) [1, 2, 1, 3] 1 0 3 (by decide) (by decide)
    (by
      intro k _ hk
      interval_cases k
      · exact ⟨_, rfl, by decide⟩
      · exact ⟨_, rfl, by decide⟩
      · exact ⟨_, rfl, by decide⟩
      · exact ⟨_, rfl, by decide⟩)

/-! ## Hits -/

/-- What a hit leaves unchanged, and how it reorders the recency list. -/
theorem step_of_resident {C : Nat} (hC : 1 ≤ C) {st st' : LRUState} {r : StepRecord}
    (h : WF C st) {p : Int} (hs : step C st p = .ok (st', r)) (hp : p ∈ st.pages) :
    r.isHit = true ∧ r.evicted = none ∧ r.printed = printedFrames st.framesDisplay ∧
    st'.framePositions = st.framePositions ∧ st'.framesDisplay = st.framesDisplay ∧
    st'.pageFaults = st.pageFaults ∧ st'.nextInsertIndex = st.nextInsertIndex ∧
    st'.pageListIteratorMap = st.pageListIteratorMap ∧
    st'.pages = p :: st.pages.filter (fun q => decide (q ≠ p)) := by
  rcases step_cases hC h p with ⟨_, it, hit, hstep⟩ | ⟨hq, _⟩ | ⟨hq, _⟩
  · rw [hstep] at hs
    obtain ⟨rfl, rfl⟩ := Prod.mk.inj (Except.ok.inj hs)
    exact ⟨rfl, rfl, rfl, rfl, rfl, rfl, rfl, rfl, pages_hitState h hit⟩
  · exact absurd hp hq
  · exact absurd hp hq

/-- C5: for every capacity of at least one and every reference sequence with
`refs[i+1] = refs[i]`, step `i+1` is a hit, it prints the same frame snapshot
as step `i`, and the fault counter after step `i+1` is the counter after step
`i`. -/
theorem C5_repeated_reference_is_hit (numFrames : Int) (hC : 1 ≤ numFrames)
    (refs : List Int) (i : Nat) (hi : i + 1 < refs.length)
    (heq : refs[i + 1] = refs[i]) :
    ∃ out r r' st' st'', simulateLRU numFrames refs = .ok out ∧
      out.steps[i]? = some r ∧ out.steps[i + 1]? = some r' ∧
      stateAt numFrames refs (i + 1) = .ok st' ∧
      stateAt numFrames refs (i + 2) = .ok st'' ∧
      r'.isHit = true ∧ r'.evicted = none ∧ r'.printed = r.printed ∧
      st''.framesDisplay = st'.framesDisplay ∧ st''.pageFaults = st'.pageFaults := by
  lift numFrames to ℕ using (by omega)
  have hC' : 1 ≤ numFrames := by omega
  obtain ⟨st, st', r, out, _, hwf, hstep, hwf', hst', hout, hr⟩ :=
    run_iteration hC' refs i (by omega)
  obtain ⟨st₁, st'', r', out', hst₁, _, hstep', _, hst'', hout', hr'⟩ :=
    run_iteration hC' refs (i + 1) hi
  rw [hst'] at hst₁
  obtain rfl := Except.ok.inj hst₁
  rw [hout] at hout'
  obtain rfl := Except.ok.inj hout'
  obtain ⟨rest, hpages, _, _⟩ := pages_step hC' hwf hstep
  have hres : refs[i + 1] ∈ st'.pages := by
    rw [hpages, heq]; exact List.mem_cons_self _ _
  obtain ⟨h1, h2, h3, _, h5, h6, _⟩ := step_of_resident hC' hwf' hstep' hres
  exact ⟨out, r, r', st', st'', hout, hr, hr', hst', hst'', h1, h2,
    by rw [h3, step_printed hC' hwf hstep], h5, h6⟩

/-- C5 at capacity 1 and references 7 7 7 (step 1 repeats step 0), together
with the complete output of that run: one fault, two hits, every snapshot
`[7]`, total 1. -/
theorem C5_repeated_reference_is_hit_witness :
    (∃ out r r' st' st'', simulateLRU 1 [7, 7, 7] = .ok out ∧
      out.steps[0]? = some r ∧ out.steps[0 + 1]? = some r' ∧
      stateAt 1 [7, 7, 7] (0 + 1) = .ok st' ∧
      stateAt 1 [7, 7, 7] (0 + 2) = .ok st'' ∧
      r'.isHit = true ∧ r'.evicted = none ∧ r'.printed = r.printed ∧
      st''.framesDisplay = st'.framesDisplay ∧ st''.pageFaults = st'.pageFaults) ∧
    simulateLRU 1 [7, 7, 7] = .ok
      { steps := [⟨false, none, [7]⟩, ⟨true, none, [7]⟩, ⟨true, none, [7]⟩], total := 1 } :=
  ⟨C5_repeated_reference_is_hit 1 (by decide) [7, 7, 7] 0 (by decide) (by decide), rfl⟩

/-! ## The configuration check of `main` -/

/-- C6 (as stated) fails: `main` does not check the sign of the frame count.
On `Frames 0` (no references) the run completes normally, and on `Frames 0 1 2`
the configuration is accepted and the loop starts on the first reference,
where `back()` is called on the empty list. -/
theorem C6_nonpositive_frames_counterexample :
    main (some "Frames") (some 0) [] = .simulated [] (.ok { steps := [], total := 0 }) ∧
    main (some "Frames") (some 0) [1, 2] = .simulated [1, 2] (.error .emptyBack) ∧
    step 0 (initState 0) 1 = .error .emptyBack :=
  ⟨rfl, rfl, rfl⟩

/-- C6 (amended): `main` rejects its input, before writing anything, exactly
when the leading keyword is not `Frames` or no frame count can be read. A frame
count `n ≤ 0` after the keyword `Frames` is not rejected: the reference line is
written and `simulateLRU` is called. For `n < 0` that call ends with the
length error of the vector constructor, before any step; for `n = 0` and no
reference it ends normally with no step line and total 0. -/
theorem C6_nonpositive_frames (n : Int) (hn : n ≤ 0) (refs : List Int) :
    (∀ keyword numFrames, main keyword numFrames refs = .formatError ↔
      (keyword ≠ some "Frames" ∨ numFrames = none)) ∧
    main (some "Frames") (some n) refs = .simulated refs (simulateLRU n refs) ∧
    (n < 0 → simulateLRU n refs = .error .lengthError) ∧
    (n = 0 → refs = [] → simulateLRU n refs = .ok { steps := [], total := 0 }) := by
  refine ⟨?_, ?_, ?_, ?_⟩
  · intro keyword numFrames
    cases keyword with
    | none => simp [main]
    | some k =>
      cases numFrames with
      | none => simp [main]
      | some m =>
        by_cases hk : k = "Frames"
        · simp [main, hk]
        · simp [main, hk]
  · simp [main]
  · intro h
    simp [simulateLRU, h]
  · rintro rfl rfl
    rfl

/-- C6 (amended) at `Frames -3 1`. -/
theorem C6_nonpositive_frames_witness :
    (-3 : Int) ≤ 0 ∧
    (∀ keyword numFrames, main keyword numFrames [1] = .formatError ↔
      (keyword ≠ some "Frames" ∨ numFrames = none)) ∧
    main (some "Frames") (some (-3)) [1] = .simulated [1] (simulateLRU (-3) [1]) ∧
    ((-3 : Int) < 0 → simulateLRU (-3) [1] = .error .lengthError) ∧
    ((-3 : Int) = 0 → [(1 : Int)] = [] →
      simulateLRU (-3) [1] = .ok { steps := [], total := 0 }) :=
  ⟨by decide, C6_nonpositive_frames (-3) (by decide) [1]⟩

/-! ## The worked example of the specification -/

/-- C7: with capacity 3 and references 1 2 3 4 1 2 5 every one of the seven
steps is a fault; steps 0 to 2 evict nothing and steps 3, 4, 5, 6 evict pages
1, 2, 3, 4; the snapshots printed in slot order are `[1]`, `[1,2]`, `[1,2,3]`,
`[4,2,3]`, `[4,1,3]`, `[4,1,2]`, `[5,1,2]`; the total is 7. -/
theorem C7_worked_example :
    simulateLRU 3 [1, 2, 3, 4, 1, 2, 5] = .ok
      { steps := [⟨false, none, [1]⟩, ⟨false, none, [1, 2]⟩, ⟨false, none, [1, 2, 3]⟩,
          ⟨false, some 1, [4, 2, 3]⟩, ⟨false, some 2, [4, 1, 3]⟩,
          ⟨false, some 3, [4, 1, 2]⟩, ⟨false, some 4, [5, 1, 2]⟩],
        total := 7 } := rfl

/-! ## Renaming of page identifiers -/

theorem renameNode_injective {f : Int → Int} (hf : Function.Injective f) :
    Function.Injective (renameNode f) := by
  intro a b h
  obtain ⟨ha, pa⟩ := a
  obtain ⟨hb, pb⟩ := b
  simp only [renameNode, Node.mk.injEq] at h
  obtain ⟨h1, h2⟩ := h
  rw [h1, hf h2]

theorem find_renameMap {V : Type} {f : Int → Int} (hf : Function.Injective f)
    (m : PageMap V) (k : Int) : (renameMap f m).find (f k) = m.find k := by
  induction m with
  | nil => rfl
  | cons e rest ih =>
    obtain ⟨a, v⟩ := e
    have ih' : PageMap.find (List.map (fun e => (f e.1, e.2)) rest) (f k) =
        PageMap.find rest k := ih
    by_cases h : a = k
    · simp [renameMap, PageMap.find, h]
    · have h' : ¬ f a = f k := fun e => h (hf e)
      simp [renameMap, PageMap.find, h, h', ih']

theorem erase_renameMap {V : Type} {f : Int → Int} (hf : Function.Injective f)
    (m : PageMap V) (k : Int) : (renameMap f m).erase (f k) = renameMap f (m.erase k) := by
  induction m with
  | nil => rfl
  | cons e rest ih =>
    obtain ⟨a, v⟩ := e
    have ih' : PageMap.erase (List.map (fun e => (f e.1, e.2)) rest) (f k) =
        List.map (fun e => (f e.1, e.2)) (PageMap.erase rest k) := ih
    by_cases h : a = k
    · simp [renameMap, PageMap.erase, h, ih']
    · have h' : ¬ f a = f k := fun e => h (hf e)
      simp [renameMap, PageMap.erase, h, h', ih']

theorem assign_renameMap {V : Type} {f : Int → Int} (hf : Function.Injective f)
    (m : PageMap V) (k : Int) (v : V) :
    (renameMap f m).assign (f k) v = renameMap f (m.assign k v) := by
  unfold PageMap.assign
  rw [erase_renameMap hf]
  rfl

theorem Renamed.pages_map {f : Int → Int} {st st' : LRUState} (hr : Renamed f st st') :
    st'.pages = st.pages.map f := by
  unfold LRUState.pages
  rw [hr.pageList, List.map_map, List.map_map]
  rfl

theorem renamed_initState (f : Int → Int) (N : Int) : Renamed f (initState N) (initState N) :=
  ⟨rfl, rfl, rfl, rfl, rfl, rfl, rfl, fun s hs => absurd hs (Nat.not_lt_zero s), fun _ _ => rfl⟩

/-- An iteration of the renamed run mirrors the iteration of the original run. -/
theorem rename_step {C : Nat} (hC : 1 ≤ C) {f : Int → Int} (hf : Function.Injective f)
    {st st' st₁ st₁' : LRUState} {r r' : StepRecord} {p : Int}
    (h : WF C st) (h' : WF C st') (hr : Renamed f st st')
    (hs : step C st p = .ok (st₁, r)) (hs' : step C st' (f p) = .ok (st₁', r')) :
    Renamed f st₁ st₁' ∧ r'.isHit = r.isHit ∧ r'.evicted = r.evicted.map f := by
  have hmem : f p ∈ st'.pages ↔ p ∈ st.pages := by
    rw [hr.pages_map]; exact List.mem_map_of_injective hf
  have hlen : st'.pageList.length = st.pageList.length := by
    rw [hr.pageList, List.length_map]
  rcases step_cases hC h p with ⟨hp, it, hit, hstep⟩ | ⟨hp, hfull, v, s, hl, hfs, hsC, _, hstep⟩ |
    ⟨hp, hlt, hstep⟩
  · -- hit
    rw [hstep] at hs
    obtain ⟨rfl, rfl⟩ := Prod.mk.inj (Except.ok.inj hs)
    rcases step_cases hC h' (f p) with ⟨_, it', hit', hstep'⟩ | ⟨hp', _⟩ | ⟨hp', _⟩
    · rw [hstep'] at hs'
      obtain ⟨rfl, rfl⟩ := Prod.mk.inj (Except.ok.inj hs')
      have hit'' : it' = it := by
        rw [hr.pageList] at hit'
        obtain ⟨n, hn, hne⟩ := List.mem_map.1 hit'
        obtain ⟨nh, np⟩ := n
        simp only [renameNode, Node.mk.injEq] at hne
        obtain ⟨rfl, hnp⟩ := hne
        have hnp' : np = p := hf hnp
        subst hnp'
        have := List.inj_on_of_nodup_map h.pages_nodup hn hit rfl
        exact congrArg Node.handle this
      subst hit''
      refine ⟨⟨?_, hr.iter, hr.pos, hr.faults, hr.next, hr.handle, hr.display_len,
        hr.display_lt, hr.display_ge⟩, rfl, rfl⟩
      show Node.mk it' (f p) :: st'.pageList.erase (Node.mk it' (f p)) =
        (Node.mk it' p :: st.pageList.erase (Node.mk it' p)).map (renameNode f)
      rw [List.map_cons, List.map_erase (renameNode_injective hf), hr.pageList]
      rfl
    · exact absurd (hmem.2 hp) hp'
    · exact absurd (hmem.2 hp) hp'
  · -- replacement
    rw [hstep] at hs
    obtain ⟨rfl, rfl⟩ := Prod.mk.inj (Except.ok.inj hs)
    rcases step_cases hC h' (f p) with ⟨hp', _⟩ | ⟨_, _, v', s', hl', hfs', _, _, hstep'⟩ |
      ⟨_, hlt', _⟩
    · exact absurd (hmem.1 hp') hp
    · rw [hstep'] at hs'
      obtain ⟨rfl, rfl⟩ := Prod.mk.inj (Except.ok.inj hs')
      have hlast : st.pageList.getLast? = some v := by rw [hl]; simp
      have hlast' : st'.pageList.getLast? = some v' := by rw [hl']; simp
      have hv : v' = renameNode f v := by
        rw [hr.pageList, List.getLast?_map, hlast] at hlast'
        exact (Option.some.inj hlast').symm
      subst hv
      have hss : s' = s := by
        have : st'.framePositions.find (f v.page) = some s' := hfs'
        rw [hr.pos, find_renameMap hf, hfs] at this
        exact (Option.some.inj this).symm
      subst hss
      have hsl : s' < st.framesDisplay.length := by rw [h.display_len]; exact hsC
      have hsn : s' < st.nextInsertIndex := (h.pos_display _ _ hfs).2.1
      refine ⟨⟨?_, ?_, ?_, ?_, hr.next, ?_, ?_, ?_, ?_⟩, rfl, rfl⟩
      · show Node.mk st'.nextHandle (f p) :: st'.pageList.dropLast =
          (Node.mk st.nextHandle p :: st.pageList.dropLast).map (renameNode f)
        rw [List.map_cons, List.map_dropLast, hr.pageList, hr.handle]
        rfl
      · show (st'.pageListIteratorMap.erase (f v.page)).assign (f p) st'.nextHandle =
          renameMap f ((st.pageListIteratorMap.erase v.page).assign p st.nextHandle)
        rw [hr.iter, hr.handle, erase_renameMap hf, assign_renameMap hf]
      · show (st'.framePositions.erase (f v.page)).assign (f p) s' =
          renameMap f ((st.framePositions.erase v.page).assign p s')
        rw [hr.pos, erase_renameMap hf, assign_renameMap hf]
      · show st'.pageFaults + 1 = st.pageFaults + 1
        rw [hr.faults]
      · show st'.nextHandle + 1 = st.nextHandle + 1
        rw [hr.handle]
      · show (st'.framesDisplay.set s' (f p)).length = (st.framesDisplay.set s' p).length
        rw [List.length_set, List.length_set, hr.display_len]
      · intro t ht
        have ht : t < st.nextInsertIndex := ht
        show (st'.framesDisplay.set s' (f p))[t]? = ((st.framesDisplay.set s' p)[t]?).map f
        by_cases hst : s' = t
        · subst hst
          rw [List.getElem?_set_self (by rw [hr.display_len]; exact hsl),
            List.getElem?_set_self hsl]
          rfl
        · rw [List.getElem?_set_ne hst, List.getElem?_set_ne hst]
          exact hr.display_lt t ht
      · intro t ht
        have ht : st.nextInsertIndex ≤ t := ht
        show (st'.framesDisplay.set s' (f p))[t]? = (st.framesDisplay.set s' p)[t]?
        rw [List.getElem?_set_ne (by omega), List.getElem?_set_ne (by omega)]
        exact hr.display_ge t ht
    · omega
  · -- initial fill
    rw [hstep] at hs
    obtain ⟨rfl, rfl⟩ := Prod.mk.inj (Except.ok.inj hs)
    rcases step_cases hC h' (f p) with ⟨hp', _⟩ | ⟨_, hfull', _⟩ | ⟨_, _, hstep'⟩
    · exact absurd (hmem.1 hp') hp
    · omega
    · rw [hstep'] at hs'
      obtain ⟨rfl, rfl⟩ := Prod.mk.inj (Except.ok.inj hs')
      have hnl : st.nextInsertIndex < st.framesDisplay.length := by
        rw [h.display_len, h.next_eq]; exact hlt
      refine ⟨⟨?_, ?_, ?_, ?_, ?_, ?_, ?_, ?_, ?_⟩, rfl, rfl⟩
      · show Node.mk st'.nextHandle (f p) :: st'.pageList =
          (Node.mk st.nextHandle p :: st.pageList).map (renameNode f)
        rw [List.map_cons, hr.pageList, hr.handle]
        rfl
      · show st'.pageListIteratorMap.assign (f p) st'.nextHandle =
          renameMap f (st.pageListIteratorMap.assign p st.nextHandle)
        rw [hr.iter, hr.handle, assign_renameMap hf]
      · show st'.framePositions.assign (f p) st'.nextInsertIndex =
          renameMap f (st.framePositions.assign p st.nextInsertIndex)
        rw [hr.pos, hr.next, assign_renameMap hf]
      · show st'.pageFaults + 1 = st.pageFaults + 1
        rw [hr.faults]
      · show st'.nextInsertIndex + 1 = st.nextInsertIndex + 1
        rw [hr.next]
      · show st'.nextHandle + 1 = st.nextHandle + 1
        rw [hr.handle]
      · show (st'.framesDisplay.set st'.nextInsertIndex (f p)).length =
          (st.framesDisplay.set st.nextInsertIndex p).length
        rw [List.length_set, List.length_set, hr.display_len]
      · intro t ht
        have ht : t < st.nextInsertIndex + 1 := ht
        show (st'.framesDisplay.set st'.nextInsertIndex (f p))[t]? =
          ((st.framesDisplay.set st.nextInsertIndex p)[t]?).map f
        rw [hr.next]
        by_cases hst : st.nextInsertIndex = t
        · subst hst
          rw [List.getElem?_set_self (by rw [hr.display_len]; exact hnl),
            List.getElem?_set_self hnl]
          rfl
        · rw [List.getElem?_set_ne hst, List.getElem?_set_ne hst]
          exact hr.display_lt t (by omega)
      · intro t ht
        have ht : st.nextInsertIndex + 1 ≤ t := ht
        show (st'.framesDisplay.set st'.nextInsertIndex (f p))[t]? =
          (st.framesDisplay.set st.nextInsertIndex p)[t]?
        rw [hr.next, List.getElem?_set_ne (by omega), List.getElem?_set_ne (by omega)]
        exact hr.display_ge t (by omega)

theorem renamed_stateAt {C : Nat} (hC : 1 ≤ C) {f : Int → Int} (hf : Function.Injective f)
    (refs : List Int) (i : Nat) (hi : i ≤ refs.length) :
    ∃ st st', stateAt C refs i = .ok st ∧ stateAt C (refs.map f) i = .ok st' ∧
      Renamed f st st' := by
  induction i with
  | zero => exact ⟨_, _, stateAt_zero _ _, stateAt_zero _ _, renamed_initState f C⟩
  | succ i ih =>
    obtain ⟨st₀, st₀', hst₀, hst₀', hr⟩ := ih (by omega)
    have hi' : i < refs.length := by omega
    have hi'' : i < (refs.map f).length := by rw [List.length_map]; exact hi'
    obtain ⟨st, st₁, r, _, hst, hwf, hstep, _, hst₁, _⟩ := run_iteration hC refs i hi'
    obtain ⟨st', st₁', r', _, hst', hwf', hstep', _, hst₁', _⟩ :=
      run_iteration hC (refs.map f) i hi''
    rw [hst₀] at hst
    obtain rfl := Except.ok.inj hst
    rw [hst₀'] at hst'
    obtain rfl := Except.ok.inj hst'
    rw [List.getElem_map] at hstep'
    exact ⟨st₁, st₁', hst₁, hst₁', (rename_step hC hf hwf hwf' hr hstep hstep').1⟩

theorem WF.mem_display {C : Nat} {st : LRUState} (h : WF C st) {x : Int}
    (hx : x ∈ st.framesDisplay) : x = -1 ∨ x ∈ st.pages := by
  obtain ⟨t, ht, hxt⟩ := List.mem_iff_getElem.1 hx
  have hget : st.framesDisplay[t]? = some x := by
    rw [List.getElem?_eq_getElem ht, hxt]
  by_cases hn : t < st.nextInsertIndex
  · obtain ⟨p, hp⟩ := h.display_pos t hn
    obtain ⟨h1, _, h3⟩ := h.pos_display p t hp
    rw [hget] at h3
    exact Or.inr ((Option.some.inj h3) ▸ h1)
  · have := h.display_empty t (by omega) (by rw [← h.display_len]; exact ht)
    rw [hget] at this
    exact Or.inl (Option.some.inj this)

/-- When the renaming respects the empty marker on the resident pages, the
renamed run prints the image of what the original run prints. -/
theorem printed_renamed {C : Nat} {f : Int → Int} {st st' : LRUState} (h : WF C st)
    (hr : Renamed f st st') (hm : ∀ q ∈ st.pages, (f q = -1 ↔ q = -1)) :
    printedFrames st'.framesDisplay = (printedFrames st.framesDisplay).map f := by
  have hfd : st'.framesDisplay = st.framesDisplay.map (fun x => if x = -1 then -1 else f x) := by
    apply List.ext_getElem?
    intro t
    rw [List.getElem?_map]
    by_cases hn : t < st.nextInsertIndex
    · rw [hr.display_lt t hn]
      obtain ⟨p, hp⟩ := h.display_pos t hn
      obtain ⟨h1, _, h3⟩ := h.pos_display p t hp
      rw [h3]
      simp only [Option.map_some']
      by_cases hp1 : p = -1
      · rw [if_pos hp1, (hm p h1).2 hp1]
      · rw [if_neg hp1]
    · rw [hr.display_ge t (by omega)]
      by_cases htC : t < C
      · rw [h.display_empty t (by omega) htC]
        rfl
      · rw [List.getElem?_eq_none (by rw [h.display_len]; omega)]
        rfl
  unfold printedFrames
  rw [hfd, List.filter_map]
  have hfilt : List.filter ((fun p => decide (p ≠ -1)) ∘ fun x => if x = -1 then -1 else f x)
      st.framesDisplay = List.filter (fun p => decide (p ≠ -1)) st.framesDisplay := by
    apply List.filter_congr
    intro x hx
    by_cases hx1 : x = -1
    · simp [hx1]
    · rcases h.mem_display hx with e | e
      · exact absurd e hx1
      · have : f x ≠ -1 := fun e' => hx1 ((hm x e).1 e')
        simp [hx1, this]
  rw [hfilt]
  apply List.map_congr_left
  intro x hx
  have hx1 : x ≠ -1 := by simpa using (List.mem_filter.1 hx).2
  simp [hx1]

/-- C8 (as stated) fails when the renaming moves a page onto `-1`: with
capacity 1, the single reference 5 and the injective renaming `x ↦ x - 6`, the
original run prints `[5]` at step 0 and the renamed run (reference `-1`) prints
nothing, which is not the image `[-1]` of `[5]`. -/
theorem C8_renaming_counterexample :
    Function.Injective (fun x : Int => x - 6) ∧
    simulateLRU 1 [5] = .ok { steps := [⟨false, none, [5]⟩], total := 1 } ∧
    simulateLRU 1 ([5].map (fun x : Int => x - 6)) =
      .ok { steps := [⟨false, none, []⟩], total := 1 } ∧
    ([] : List Int) ≠ [(5 : Int)].map (fun x : Int => x - 6) :=
  ⟨fun a b h => by simpa using h, rfl, rfl, by decide⟩

/-- C8 (amended): for every capacity of at least one, every reference sequence
and every injective renaming `f` of the page identifiers, the run on the
renamed sequence ends normally like the original run, with the same total, and
at every step with the same hit or fault outcome and the image under `f` of the
evicted page; and when `f` maps a page of the sequence to `-1` exactly when
that page is `-1`, the snapshot printed at every step of the renamed run is the
image under `f`, entry by entry, of the snapshot printed by the original
run. -/
theorem C8_renaming (numFrames : Int) (hC : 1 ≤ numFrames) (refs : List Int)
    (f : Int → Int) (hf : Function.Injective f) :
    ∃ out out', simulateLRU numFrames refs = .ok out ∧
      simulateLRU numFrames (refs.map f) = .ok out' ∧
      out'.total = out.total ∧ out'.steps.length = out.steps.length ∧
      ∀ i, i < refs.length → ∃ r r', out.steps[i]? = some r ∧ out'.steps[i]? = some r' ∧
        r'.isHit = r.isHit ∧ r'.evicted = r.evicted.map f ∧
        ((∀ x ∈ refs, (f x = -1 ↔ x = -1)) → r'.printed = r.printed.map f) := by
  lift numFrames to ℕ using (by omega)
  have hC' : 1 ≤ numFrames := by omega
  obtain ⟨stf, out, hstf, _, hout, htot, hlen⟩ := run_final hC' refs
  obtain ⟨stf', out', hstf', _, hout', htot', hlen'⟩ := run_final hC' (refs.map f)
  rw [List.length_map] at hstf' hlen'
  obtain ⟨st, st', hst, hst', hr⟩ := renamed_stateAt hC' hf refs refs.length le_rfl
  rw [hstf] at hst
  obtain rfl := Except.ok.inj hst
  rw [hstf'] at hst'
  obtain rfl := Except.ok.inj hst'
  refine ⟨out, out', hout, hout', by rw [htot, htot', hr.faults], by rw [hlen, hlen'], ?_⟩
  intro i hi
  have hi' : i < (refs.map f).length := by rw [List.length_map]; exact hi
  obtain ⟨st₀, st₁, r, o, hst₀, hwf, hstep, hwf₁, hst₁, ho, hri⟩ :=
    run_iteration hC' refs i hi
  obtain ⟨st₀', st₁', r', o', hst₀', hwf', hstep', _, hst₁', ho', hri'⟩ :=
    run_iteration hC' (refs.map f) i hi'
  rw [hout] at ho
  obtain rfl := Except.ok.inj ho
  rw [hout'] at ho'
  obtain rfl := Except.ok.inj ho'
  obtain ⟨s₀, s₀', hs₀, hs₀', hr₀⟩ := renamed_stateAt hC' hf refs i (by omega)
  rw [hst₀] at hs₀
  obtain rfl := Except.ok.inj hs₀
  rw [hst₀'] at hs₀'
  obtain rfl := Except.ok.inj hs₀'
  rw [List.getElem_map] at hstep'
  obtain ⟨hr₁, h1, h2⟩ := rename_step hC' hf hwf hwf' hr₀ hstep hstep'
  refine ⟨r, r', hri, hri', h1, h2, ?_⟩
  intro hm
  obtain ⟨s₁, hs₁, hsub, _⟩ := seen_stateAt hC' refs (i + 1) (by omega)
  rw [hst₁] at hs₁
  obtain rfl := Except.ok.inj hs₁
  rw [step_printed hC' hwf hstep, step_printed hC' hwf' hstep']
  exact printed_renamed hwf₁ hr₁ (fun q hq => hm q (List.mem_of_mem_take (hsub q hq)))

/-- C8 (amended) at capacity 2, references 1 2 3 and the renaming `x ↦ x + 10`. -/
theorem C8_renaming_witness :
    (1 : Int) ≤ 2 ∧ Function.Injective (fun x : Int => x + 10) ∧
    ∃ out out', simulateLRU 2 [1, 2, 3] = .ok out ∧
      simulateLRU 2 ([1, 2, 3].map (fun x : Int => x + 10)) = .ok out' ∧
      out'.total = out.total ∧ out'.steps.length = out.steps.length ∧
      ∀ i, i < [(1 : Int), 2, 3].length →
        ∃ r r', out.steps[i]? = some r ∧ out'.steps[i]? = some r' ∧
        r'.isHit = r.isHit ∧ r'.evicted = r.evicted.map (fun x : Int => x + 10) ∧
        ((∀ x ∈ [(1 : Int), 2, 3], (x + 10 = -1 ↔ x = -1)) →
          r'.printed = r.printed.map (fun x : Int => x + 10)) :=
  ⟨by decide, fun a b h => by simpa using h,
    C8_renaming 2 (by decide) [1, 2, 3] (fun x : Int => x + 10) (fun a b h => by simpa using h)⟩

/-! ## Pairwise distinct references -/

/-- On pairwise distinct references the recency list is the reversed prefix cut
at the capacity, and every reference so far was a fault. -/
theorem distinct_stateAt {C : Nat} (hC : 1 ≤ C) (refs : List Int) (hnd : refs.Nodup)
    (i : Nat) (hi : i ≤ refs.length) :
    ∃ st, stateAt C refs i = .ok st ∧ WF C st ∧
      st.pages = ((refs.take i).reverse).take C ∧ st.pageFaults = i := by
  induction i with
  | zero =>
    exact ⟨initState C, stateAt_zero _ _, wf_initState C, by simp [initState, LRUState.pages],
      by simp [initState]⟩
  | succ i ih =>
    obtain ⟨st₀, hst₀, _, hpages, hcnt⟩ := ih (by omega)
    have hi' : i < refs.length := by omega
    obtain ⟨st, st', r, _, hst, hwf, hstep, hwf', hst', _⟩ := run_iteration hC refs i hi'
    rw [hst₀] at hst
    obtain rfl := Except.ok.inj hst
    have htake : refs.take (i + 1) = refs.take i ++ [refs[i]] := by
      rw [List.take_succ, List.getElem?_eq_getElem hi']; rfl
    have hnd' : (refs.take i ++ [refs[i]]).Nodup := by
      rw [← htake]; exact hnd.sublist (List.take_sublist _ _)
    have hnew : refs[i] ∉ refs.take i := fun hm =>
      (List.nodup_append.1 hnd').2.2 hm (List.mem_singleton_self _)
    have hp : refs[i] ∉ st₀.pages := by
      rw [hpages]
      intro hm
      exact hnew (List.mem_reverse.1 (List.mem_of_mem_take hm))
    have hlenL : ((refs.take i).reverse).length = i := by
      rw [List.length_reverse, List.length_take]; omega
    have hlen : st₀.pageList.length = min C i := by
      have : st₀.pages.length = min C i := by rw [hpages, List.length_take, hlenL]
      simpa [LRUState.pages] using this
    obtain ⟨c, rfl⟩ : ∃ c, C = c + 1 := ⟨C - 1, by omega⟩
    have htarget : ((refs.take (i + 1)).reverse).take (c + 1) =
        refs[i] :: ((refs.take i).reverse).take c := by
      rw [htake, List.reverse_append]
      rfl
    refine ⟨st', hst', hwf', ?_, ?_⟩
    · rw [htarget]
      rcases step_cases hC hwf refs[i] with ⟨hp', _⟩ | ⟨_, hfull, v, s, _, _, _, _, hs⟩ |
        ⟨_, hlt, hs⟩
      · exact absurd hp' hp
      · rw [hs] at hstep
        obtain ⟨rfl, -⟩ := Prod.mk.inj (Except.ok.inj hstep)
        rw [pages_replaceState, hpages, List.dropLast_eq_take, List.length_take, hlenL,
          List.take_take]
        have : min (min (c + 1) i - 1) (c + 1) = c := by omega
        rw [this]
      · rw [hs] at hstep
        obtain ⟨rfl, -⟩ := Prod.mk.inj (Except.ok.inj hstep)
        have h1 : ((refs.take i).reverse).take (c + 1) = (refs.take i).reverse :=
          List.take_of_length_le (by rw [hlenL]; omega)
        have h2 : ((refs.take i).reverse).take c = (refs.take i).reverse :=
          List.take_of_length_le (by rw [hlenL]; omega)
        rw [pages_fillState, hpages, h1, h2]
    · rw [(step_counter hC hwf hstep).2.2, hcnt]
      have hnh : r.isHit = false := by
        cases hr : r.isHit with
        | false => rfl
        | true => exact absurd ((step_counter hC hwf hstep).1.1 hr) hp
      simp [hnh]

/-- C9: for every capacity `C` of at least one and every sequence of pairwise
distinct references, the run ends normally with a total equal to the number of
references, every step is a fault, a step with index `i < C` evicts nothing,
and a step with index `i ≥ C` evicts the page `refs[i - C]`. -/
theorem C9_distinct_references (C : Nat) (hC : 1 ≤ C) (refs : List Int)
    (hnd : refs.Nodup) :
    ∃ out, simulateLRU C refs = .ok out ∧ out.total = refs.length ∧
      ∀ i (hi : i < refs.length), ∃ r, out.steps[i]? = some r ∧ r.isHit = false ∧
        (i < C → r.evicted = none) ∧
        (C ≤ i → r.evicted = some refs[i - C]) := by
  obtain ⟨stf, out, hstf, _, hout, htot, _⟩ := run_final hC refs
  obtain ⟨st₁, hst₁, _, _, hcnt⟩ := distinct_stateAt hC refs hnd refs.length le_rfl
  rw [hstf] at hst₁
  obtain rfl := Except.ok.inj hst₁
  refine ⟨out, hout, by rw [htot, hcnt], ?_⟩
  intro i hi
  obtain ⟨st, st', r, o, hst, hwf, hstep, _, _, ho, hr⟩ := run_iteration hC refs i hi
  rw [hout] at ho
  obtain rfl := Except.ok.inj ho
  obtain ⟨st₀, hst₀, _, hpages, _⟩ := distinct_stateAt hC refs hnd i (by omega)
  rw [hst] at hst₀
  obtain rfl := Except.ok.inj hst₀
  have hlenL : ((refs.take i).reverse).length = i := by
    rw [List.length_reverse, List.length_take]; omega
  have hlen : st.pageList.length = min C i := by
    have : st.pages.length = min C i := by rw [hpages, List.length_take, hlenL]
    simpa [LRUState.pages] using this
  have hp : refs[i] ∉ st.pages := by
    have htake : refs.take (i + 1) = refs.take i ++ [refs[i]] := by
      rw [List.take_succ, List.getElem?_eq_getElem hi]; rfl
    have hnd' : (refs.take i ++ [refs[i]]).Nodup := by
      rw [← htake]; exact hnd.sublist (List.take_sublist _ _)
    rw [hpages]
    intro hm
    exact (List.nodup_append.1 hnd').2.2 (List.mem_reverse.1 (List.mem_of_mem_take hm))
      (List.mem_singleton_self _)
  refine ⟨r, hr, ?_⟩
  rcases step_cases hC hwf refs[i] with ⟨hp', _⟩ | ⟨_, hfull, v, s, hl, _, _, _, hs⟩ |
    ⟨_, hlt, hs⟩
  · exact absurd hp' hp
  · rw [hs] at hstep
    obtain ⟨-, rfl⟩ := Prod.mk.inj (Except.ok.inj hstep)
    have hCi : C ≤ i := by omega
    refine ⟨rfl, fun h => by omega, fun _ => ?_⟩
    have hlast : st.pages.getLast? = some v.page := by
      unfold LRUState.pages
      rw [List.getLast?_map, hl]
      simp
    rw [hpages, List.getLast?_eq_getElem?, List.length_take, hlenL,
      List.getElem?_take_of_lt (by omega), List.getElem?_reverse (by rw [List.length_take]; omega),
      List.length_take, List.getElem?_take_of_lt (by omega)] at hlast
    have hidx : min i refs.length - 1 - (min C i - 1) = i - C := by omega
    rw [hidx, List.getElem?_eq_getElem (by omega)] at hlast
    show some v.page = some refs[i - C]
    rw [← hlast]
  · rw [hs] at hstep
    obtain ⟨-, rfl⟩ := Prod.mk.inj (Except.ok.inj hstep)
    exact ⟨rfl, fun _ => rfl, fun h => by omega⟩

/-- C9 at capacity 2 and references 4 5 6 7. -/
theorem C9_distinct_references_witness :
    1 ≤ 2 ∧ [(4 : Int), 5, 6, 7].Nodup ∧
    ∃ out, simulateLRU (2 : Nat) [4, 5, 6, 7] = .ok out ∧
      out.total = [(4 : Int), 5, 6, 7].length ∧
      ∀ i (hi : i < [(4 : Int), 5, 6, 7].length), ∃ r, out.steps[i]? = some r ∧
        r.isHit = false ∧ (i < 2 → r.evicted = none) ∧
        (2 ≤ i → r.evicted = some [(4 : Int), 5, 6, 7][i - 2]) :=
  ⟨by decide, by decide, C9_distinct_references 2 (by decide) [4, 5, 6, 7] (by decide)⟩

/-! ## The effect of a hit -/

/-- C10: for every capacity of at least one and every reference sequence, at
every step whose page `p` is already resident (found in the recency index),
the step is a hit that leaves `framePositions`, `framesDisplay` and
`pageFaults` unchanged, and the new recency order is `p` followed by the
previous recency order with `p` removed. -/
theorem C10_hit_effect (numFrames : Int) (hC : 1 ≤ numFrames)
    (refs : List Int) (i : Nat) (hi : i < refs.length) :
    ∃ st st' r, stateAt numFrames refs i = .ok st ∧
      step numFrames st refs[i] = .ok (st', r) ∧
      stateAt numFrames refs (i + 1) = .ok st' ∧
      (st.pageListIteratorMap.find refs[i] ≠ none →
        r.isHit = true ∧ r.evicted = none ∧
        st'.framePositions = st.framePositions ∧
        st'.framesDisplay = st.framesDisplay ∧
        st'.pageFaults = st.pageFaults ∧
        st'.pages = refs[i] :: st.pages.filter (fun q => decide (q ≠ refs[i]))) := by
  lift numFrames to ℕ using (by omega)
  have hC' : 1 ≤ numFrames := by omega
  obtain ⟨st, st', r, _, hst, hwf, hstep, _, hst', _⟩ := run_iteration hC' refs i hi
  refine ⟨st, st', r, hst, hstep, hst', ?_⟩
  intro hfind
  have hp : refs[i] ∈ st.pages := by
    by_contra hn
    exact hfind ((hwf.find_none_iff _).2 hn)
  obtain ⟨h1, h2, _, h4, h5, h6, _, _, h9⟩ := step_of_resident hC' hwf hstep hp
  exact ⟨h1, h2, h4, h5, h6, h9⟩

/-- C10 at capacity 3, references 1 2 3 1, step 3 (a hit on page 1, which is at
the back of the recency order 3 2 1). -/
theorem C10_hit_effect_witness :
    (1 : Int) ≤ 3 ∧ 3 < [(1 : Int), 2, 3, 1].length ∧
    ∃ st st' r, stateAt 3 [1, 2, 3, 1] 3 = .ok st ∧
      step 3 st 1 = .ok (st', r) ∧
      stateAt 3 [1, 2, 3, 1] (3 + 1) = .ok st' ∧
      (st.pageListIteratorMap.find 1 ≠ none →
        r.isHit = true ∧ r.evicted = none ∧
        st'.framePositions = st.framePositions ∧
        st'.framesDisplay = st.framesDisplay ∧
        st'.pageFaults = st.pageFaults ∧
        st'.pages = 1 :: st.pages.filter (fun q => decide (q ≠ 1))) :=
  ⟨by decide, by decide, C10_hit_effect 3 (by decide) [1, 2, 3, 1] 3 (by decide)⟩

/-! ## The effect of a replacement -/

/-- C11: for every capacity of at least one and every reference sequence, at
every fault step with the frames full, where `v` is the node at the back of the
recency order and `s` the slot of its page just before the step: after the step
`framesDisplay[s]` is the referenced page `p` and `framePositions[p]` is `s`;
the page of `v` is absent from the recency order, from the recency index and
from `framePositions`; every slot other than `s` holds what it held before, and
every page other than `p` and the victim has the slot entry it had before. -/
theorem C11_replacement_effect (numFrames : Int) (hC : 1 ≤ numFrames)
    (refs : List Int) (i : Nat) (hi : i < refs.length) :
    ∃ st st' r, stateAt numFrames refs i = .ok st ∧
      step numFrames st refs[i] = .ok (st', r) ∧
      stateAt numFrames refs (i + 1) = .ok st' ∧
      (st.pageListIteratorMap.find refs[i] = none →
        (st.pageList.length : Int) = numFrames →
        ∃ v s, st.pageList.getLast? = some v ∧ st.framePositions.find v.page = some s ∧
          r.evicted = some v.page ∧
          st'.framesDisplay[s]? = some refs[i] ∧
          st'.framePositions.find refs[i] = some s ∧
          v.page ∉ st'.pages ∧
          st'.pageListIteratorMap.find v.page = none ∧
          st'.framePositions.find v.page = none ∧
          (∀ t, t ≠ s → st'.framesDisplay[t]? = st.framesDisplay[t]?) ∧
          (∀ q, q ≠ refs[i] → q ≠ v.page →
            st'.framePositions.find q = st.framePositions.find q)) := by
  lift numFrames to ℕ using (by omega)
  have hC' : 1 ≤ numFrames := by omega
  obtain ⟨st, st', r, _, hst, hwf, hstep, hwf', hst', _⟩ := run_iteration hC' refs i hi
  refine ⟨st, st', r, hst, hstep, hst', ?_⟩
  intro hfind hfull
  have hfull' : st.pageList.length = numFrames := by exact_mod_cast hfull
  rcases step_cases hC' hwf refs[i] with ⟨hp, _⟩ | ⟨hp, _, v, s, hl, hfs, hsC, _, hs⟩ |
    ⟨_, hlt, _⟩
  · exact absurd hp ((hwf.find_none_iff _).1 hfind)
  · rw [hs] at hstep
    obtain ⟨rfl, rfl⟩ := Prod.mk.inj (Except.ok.inj hstep)
    have hlast : st.pageList.getLast? = some v := by rw [hl]; simp
    have hv : v.page ∈ st.pages := (hwf.pos_display _ _ hfs).1
    have hvp : v.page ≠ refs[i] := fun e => hp (e ▸ hv)
    have hsl : s < st.framesDisplay.length := by rw [hwf.display_len]; exact hsC
    have hiter : (replaceState st v s refs[i]).pageListIteratorMap.find v.page = none := by
      show ((st.pageListIteratorMap.erase v.page).assign refs[i] st.nextHandle).find v.page = none
      rw [PageMap.find_assign, PageMap.find_erase]
      simp [hvp]
    refine ⟨v, s, hlast, hfs, rfl, ?_, ?_, (hwf'.find_none_iff _).1 hiter, hiter, ?_, ?_, ?_⟩
    · show (st.framesDisplay.set s refs[i])[s]? = some refs[i]
      exact List.getElem?_set_self hsl
    · show ((st.framePositions.erase v.page).assign refs[i] s).find refs[i] = some s
      rw [PageMap.find_assign]
      simp
    · show ((st.framePositions.erase v.page).assign refs[i] s).find v.page = none
      rw [PageMap.find_assign, PageMap.find_erase]
      simp [hvp]
    · intro t ht
      show (st.framesDisplay.set s refs[i])[t]? = st.framesDisplay[t]?
      exact List.getElem?_set_ne (fun e => ht e.symm)
    · intro q hq hqv
      show ((st.framePositions.erase v.page).assign refs[i] s).find q = st.framePositions.find q
      rw [PageMap.find_assign, PageMap.find_erase]
      simp [hq, hqv]
  · omega

/-- C11 at capacity 2, references 1 2 3, step 2 (page 3 replaces page 1 in
slot 0). -/
theorem C11_replacement_effect_witness :
    (1 : Int) ≤ 2 ∧ 2 < [(1 : Int), 2, 3].length ∧
    ∃ st st' r, stateAt 2 [1, 2, 3] 2 = .ok st ∧
      step 2 st 3 = .ok (st', r) ∧
      stateAt 2 [1, 2, 3] (2 + 1) = .ok st' ∧
      (st.pageListIteratorMap.find 3 = none →
        (st.pageList.length : Int) = 2 →
        ∃ v s, st.pageList.getLast? = some v ∧ st.framePositions.find v.page = some s ∧
          r.evicted = some v.page ∧
          st'.framesDisplay[s]? = some 3 ∧
          st'.framePositions.find 3 = some s ∧
          v.page ∉ st'.pages ∧
          st'.pageListIteratorMap.find v.page = none ∧
          st'.framePositions.find v.page = none ∧
          (∀ t, t ≠ s → st'.framesDisplay[t]? = st.framesDisplay[t]?) ∧
          (∀ q, q ≠ 3 → q ≠ v.page →
            st'.framePositions.find q = st.framePositions.find q)) :=
  ⟨by decide, by decide, C11_replacement_effect 2 (by decide) [1, 2, 3] 2 (by decide)⟩

/-! ## Invariants of the slot assignment, the display and the recency index -/

/-- C12: for every capacity of at least one and every reference sequence,
after every step no two pages share a slot of `framePositions`, and every slot
value is below the capacity (slots are natural numbers, so at least 0). -/
theorem C12_slots_distinct_and_in_range (numFrames : Int) (hC : 1 ≤ numFrames)
    (refs : List Int) (i : Nat) (hi : i < refs.length) :
    ∃ st', stateAt numFrames refs (i + 1) = .ok st' ∧
      (∀ p q s, st'.framePositions.find p = some s → st'.framePositions.find q = some s →
        p = q) ∧
      (∀ p s, st'.framePositions.find p = some s → (0 : Int) ≤ s ∧ (s : Int) < numFrames) := by
  lift numFrames to ℕ using (by omega)
  have hC' : 1 ≤ numFrames := by omega
  obtain ⟨_, st', _, _, _, _, _, hwf', hst', _⟩ := run_iteration hC' refs i hi
  refine ⟨st', hst', ?_, ?_⟩
  · intro p q s hp hq
    have h1 := (hwf'.pos_display p s hp).2.2
    have h2 := (hwf'.pos_display q s hq).2.2
    rw [h1] at h2
    exact Option.some.inj h2
  · intro p s hp
    have h1 := (hwf'.pos_display p s hp).2.1
    have h2 := hwf'.next_eq
    have h3 := hwf'.size_le
    constructor
    · exact Int.natCast_nonneg s
    · exact_mod_cast (by omega : s < numFrames)

/-- C12 at capacity 2, references 1 2 3, step 2. -/
theorem C12_slots_distinct_and_in_range_witness :
    (1 : Int) ≤ 2 ∧ 2 < [(1 : Int), 2, 3].length ∧
    ∃ st', stateAt 2 [1, 2, 3] (2 + 1) = .ok st' ∧
      (∀ p q s, st'.framePositions.find p = some s → st'.framePositions.find q = some s →
        p = q) ∧
      (∀ p s, st'.framePositions.find p = some s → (0 : Int) ≤ s ∧ (s : Int) < 2) :=
  ⟨by decide, by decide,
    C12_slots_distinct_and_in_range 2 (by decide) [1, 2, 3] 2 (by decide)⟩

/-- C13 (as stated) fails for the empty marker: with capacity 2 and the single
reference 1, after step 0 slot 1 of `framesDisplay` holds `-1` although `-1` is
not resident and has no entry in `framePositions`. -/
theorem C13_display_matches_slots_counterexample :
    ∃ st', stateAt 2 [1] (0 + 1) = .ok st' ∧ st'.framesDisplay[1]? = some (-1) ∧
      (-1 : Int) ∉ st'.pages ∧ st'.framePositions.find (-1) = none :=
  ⟨_, rfl, rfl, by decide, rfl⟩

/-- C13 (amended): for every capacity of at least one and every reference
sequence, after every step, for every slot `s` below the capacity and every
page identifier `q`: `framesDisplay[s]` is `q` if and only if either `q` is
resident with `framePositions[q] = s`, or `q` is `-1` and slot `s` has not been
filled yet (`nextInsertIndex ≤ s`). In particular the equivalence of the claim
holds for every `q` other than `-1`. -/
theorem C13_display_matches_slots (numFrames : Int) (hC : 1 ≤ numFrames)
    (refs : List Int) (i : Nat) (hi : i < refs.length) :
    ∃ st', stateAt numFrames refs (i + 1) = .ok st' ∧
      ∀ (s : Nat) (q : Int), (s : Int) < numFrames →
        ((st'.framesDisplay[s]? = some q ↔
          (q ∈ st'.pages ∧ st'.framePositions.find q = some s) ∨
          (q = -1 ∧ st'.nextInsertIndex ≤ s)) ∧
        (q ≠ -1 → (st'.framesDisplay[s]? = some q ↔
          q ∈ st'.pages ∧ st'.framePositions.find q = some s))) := by
  lift numFrames to ℕ using (by omega)
  have hC' : 1 ≤ numFrames := by omega
  obtain ⟨_, st', _, _, _, _, _, hwf', hst', _⟩ := run_iteration hC' refs i hi
  refine ⟨st', hst', ?_⟩
  intro s q hs
  have hs' : s < numFrames := by exact_mod_cast hs
  have hfull : st'.framesDisplay[s]? = some q ↔
      (q ∈ st'.pages ∧ st'.framePositions.find q = some s) ∨
      (q = -1 ∧ st'.nextInsertIndex ≤ s) := by
    constructor
    · intro hq
      by_cases hn : s < st'.nextInsertIndex
      · obtain ⟨p, hp⟩ := hwf'.display_pos s hn
        obtain ⟨h1, _, h3⟩ := hwf'.pos_display p s hp
        rw [hq] at h3
        obtain rfl := Option.some.inj h3
        exact Or.inl ⟨h1, hp⟩
      · have := hwf'.display_empty s (by omega) hs'
        rw [hq] at this
        exact Or.inr ⟨Option.some.inj this, by omega⟩
    · rintro (⟨_, hq⟩ | ⟨rfl, hn⟩)
      · exact (hwf'.pos_display q s hq).2.2
      · exact hwf'.display_empty s hn hs'
  refine ⟨hfull, fun hq1 => ?_⟩
  rw [hfull]
  constructor
  · rintro (h | ⟨h, _⟩)
    · exact h
    · exact absurd h hq1
  · exact Or.inl

/-- C13 (amended) at capacity 2, references 1 2 3, step 2. -/
theorem C13_display_matches_slots_witness :
    (1 : Int) ≤ 2 ∧ 2 < [(1 : Int), 2, 3].length ∧
    ∃ st', stateAt 2 [1, 2, 3] (2 + 1) = .ok st' ∧
      ∀ (s : Nat) (q : Int), (s : Int) < 2 →
        ((st'.framesDisplay[s]? = some q ↔
          (q ∈ st'.pages ∧ st'.framePositions.find q = some s) ∨
          (q = -1 ∧ st'.nextInsertIndex ≤ s)) ∧
        (q ≠ -1 → (st'.framesDisplay[s]? = some q ↔
          q ∈ st'.pages ∧ st'.framePositions.find q = some s))) :=
  ⟨by decide, by decide, C13_display_matches_slots 2 (by decide) [1, 2, 3] 2 (by decide)⟩

/-- C14: for every capacity of at least one and every reference sequence,
after every step a page is a key of the recency index exactly when it is in
the recency list, and the handle stored for a key designates a node of the
list that holds that page; handles are pairwise distinct, so this node is the
only one the handle designates. -/
theorem C14_recency_index_matches_list (numFrames : Int) (hC : 1 ≤ numFrames)
    (refs : List Int) (i : Nat) (hi : i < refs.length) :
    ∃ st', stateAt numFrames refs (i + 1) = .ok st' ∧
      (∀ p, st'.pageListIteratorMap.find p ≠ none ↔ p ∈ st'.pages) ∧
      (∀ p h, st'.pageListIteratorMap.find p = some h →
        ∃ n ∈ st'.pageList, n.handle = h ∧ n.page = p ∧
          ∀ m ∈ st'.pageList, m.handle = h → m = n) ∧
      (st'.pageList.map Node.handle).Nodup := by
  lift numFrames to ℕ using (by omega)
  have hC' : 1 ≤ numFrames := by omega
  obtain ⟨_, st', _, _, _, _, _, hwf', hst', _⟩ := run_iteration hC' refs i hi
  refine ⟨st', hst', ?_, ?_, hwf'.handles_nodup⟩
  · intro p
    rw [Ne, hwf'.find_none_iff, not_not]
  · intro p h hf
    have hn := (hwf'.iter_iff p h).1 hf
    refine ⟨Node.mk h p, hn, rfl, rfl, ?_⟩
    intro m hm hmh
    exact List.inj_on_of_nodup_map hwf'.handles_nodup hm hn hmh

/-- C14 at capacity 2, references 1 2 1 3, step 3. -/
theorem C14_recency_index_matches_list_witness :
    (1 : Int) ≤ 2 ∧ 3 < [(1 : Int), 2, 1, 3].length ∧
    ∃ st', stateAt 2 [1, 2, 1, 3] (3 + 1) = .ok st' ∧
      (∀ p, st'.pageListIteratorMap.find p ≠ none ↔ p ∈ st'.pages) ∧
      (∀ p h, st'.pageListIteratorMap.find p = some h →
        ∃ n ∈ st'.pageList, n.handle = h ∧ n.page = p ∧
          ∀ m ∈ st'.pageList, m.handle = h → m = n) ∧
      (st'.pageList.map Node.handle).Nodup :=
  ⟨by decide, by decide,
    C14_recency_index_matches_list 2 (by decide) [1, 2, 1, 3] 3 (by decide)⟩

/-! ## The initial fill and the cursor -/

/-- Once the frames are full they stay full and the cursor keeps its value. -/
theorem step_full_stays {C : Nat} (hC : 1 ≤ C) {st st' : LRUState} {r : StepRecord}
    (h : WF C st) {p : Int} (hs : step C st p = .ok (st', r))
    (hfull : st.pageList.length = C) :
    st'.pageList.length = C ∧ st'.nextInsertIndex = st.nextInsertIndex := by
  rcases step_cases hC h p with ⟨_, it, hit, hstep⟩ | ⟨_, _, v, s, _, _, _, _, hstep⟩ |
    ⟨_, hlt, _⟩
  · rw [hstep] at hs
    obtain ⟨rfl, -⟩ := Prod.mk.inj (Except.ok.inj hs)
    exact ⟨by rw [← hfull]; exact (List.perm_cons_erase hit).symm.length_eq, rfl⟩
  · rw [hstep] at hs
    obtain ⟨rfl, -⟩ := Prod.mk.inj (Except.ok.inj hs)
    refine ⟨?_, rfl⟩
    show (Node.mk st.nextHandle p :: st.pageList.dropLast).length = C
    rw [List.length_cons, List.length_dropLast]
    omega
  · omega

/-- C15: for every capacity `C` of at least one and every reference sequence:
a page referenced for the first time while fewer than `C` distinct pages have
been referenced (the `k`-th distinct page, `k ≤ C`) is a fault without
eviction and is placed in slot `k - 1`; the cursor `nextInsertIndex` is at most
`C` after every step; once the recency list holds `C` pages the cursor has the
same value at every later step and the list stays full; and every later fault
puts its page in the slot of the page it evicts. -/
theorem C15_initial_fill_and_cursor (numFrames : Int) (hC : 1 ≤ numFrames)
    (refs : List Int) :
    (∀ i (hi : i < refs.length), refs[i] ∉ refs.take i →
      ((refs.take i).dedup.length : Int) < numFrames →
      ∃ st st' r, stateAt numFrames refs i = .ok st ∧
        step numFrames st refs[i] = .ok (st', r) ∧
        stateAt numFrames refs (i + 1) = .ok st' ∧
        r.isHit = false ∧ r.evicted = none ∧
        st'.framePositions.find refs[i] = some (refs.take i).dedup.length ∧
        st'.framesDisplay[(refs.take i).dedup.length]? = some refs[i]) ∧
    (∀ k, k ≤ refs.length → ∃ st, stateAt numFrames refs k = .ok st ∧
      (0 : Int) ≤ st.nextInsertIndex ∧ (st.nextInsertIndex : Int) ≤ numFrames) ∧
    (∀ i j, i ≤ j → j ≤ refs.length → ∃ sti stj, stateAt numFrames refs i = .ok sti ∧
      stateAt numFrames refs j = .ok stj ∧
      ((sti.pageList.length : Int) = numFrames →
        stj.nextInsertIndex = sti.nextInsertIndex ∧
        (stj.pageList.length : Int) = numFrames)) ∧
    (∀ j (hj : j < refs.length), ∃ st st' r, stateAt numFrames refs j = .ok st ∧
      step numFrames st refs[j] = .ok (st', r) ∧
      ((st.pageList.length : Int) = numFrames → r.isHit = false →
        ∃ v s, r.evicted = some v ∧ st.framePositions.find v = some s ∧
          st'.framePositions.find refs[j] = some s)) := by
  lift numFrames to ℕ using (by omega)
  have hC' : 1 ≤ numFrames := by omega
  refine ⟨?_, ?_, ?_, ?_⟩
  · intro i hi hnew hk
    have hk' : (refs.take i).dedup.length < numFrames := by exact_mod_cast hk
    obtain ⟨st, st', r, _, hst, hwf, hstep, hwf', hst', _⟩ := run_iteration hC' refs i hi
    obtain ⟨st₀, hst₀, _, hsub, hlen⟩ := length_pages_stateAt hC' refs i (by omega)
    rw [hst] at hst₀
    obtain rfl := Except.ok.inj hst₀
    have hp : refs[i] ∉ st.pages := fun hm => hnew (hsub _ hm)
    have hlen' : st.pageList.length = (refs.take i).dedup.length := by
      have : st.pages.length = (refs.take i).dedup.length := by rw [hlen]; omega
      simpa [LRUState.pages] using this
    rcases step_cases hC' hwf refs[i] with ⟨hp', _⟩ | ⟨_, hfull, _⟩ | ⟨_, _, hs⟩
    · exact absurd hp' hp
    · omega
    · rw [hs] at hstep
      obtain ⟨rfl, rfl⟩ := Prod.mk.inj (Except.ok.inj hstep)
      have hfind : (fillState st refs[i]).framePositions.find refs[i] =
          some (refs.take i).dedup.length := by
        show (st.framePositions.assign refs[i] st.nextInsertIndex).find refs[i] = _
        rw [PageMap.find_assign, hwf.next_eq, hlen']
        simp
      exact ⟨st, _, _, hst, hs, hst', rfl, rfl, hfind, (hwf'.pos_display _ _ hfind).2.2⟩
  · intro k _
    obtain ⟨st, hst, hwf⟩ := stateAt_ok hC' refs k
    refine ⟨st, hst, Int.natCast_nonneg _, ?_⟩
    have h1 := hwf.next_eq
    have h2 := hwf.size_le
    exact_mod_cast (by omega : st.nextInsertIndex ≤ numFrames)
  · intro i j hij
    induction j, hij using Nat.le_induction with
    | base =>
      intro _
      obtain ⟨st, hst, _⟩ := stateAt_ok hC' refs i
      exact ⟨st, st, hst, hst, fun h => ⟨rfl, h⟩⟩
    | succ j hij ih =>
      intro hj
      obtain ⟨sti, stj, hsti, hstj, hkeep⟩ := ih (by omega)
      obtain ⟨st, st', r, _, hst, hwf, hstep, _, hst', _⟩ := run_iteration hC' refs j (by omega)
      rw [hstj] at hst
      obtain rfl := Except.ok.inj hst
      refine ⟨sti, st', hsti, hst', ?_⟩
      intro hfull
      obtain ⟨h1, h2⟩ := hkeep hfull
      have h2' : stj.pageList.length = numFrames := by exact_mod_cast h2
      obtain ⟨h3, h4⟩ := step_full_stays hC' hwf hstep h2'
      exact ⟨by rw [h4, h1], by exact_mod_cast h3⟩
  · intro j hj
    obtain ⟨st, st', r, _, hst, hwf, hstep, _, _, _⟩ := run_iteration hC' refs j hj
    refine ⟨st, st', r, hst, hstep, ?_⟩
    intro hfull hfault
    have hfull' : st.pageList.length = numFrames := by exact_mod_cast hfull
    rcases step_cases hC' hwf refs[j] with ⟨_, it, _, hs⟩ | ⟨_, _, v, s, _, hfs, _, _, hs⟩ |
      ⟨_, hlt, _⟩
    · rw [hs] at hstep
      obtain ⟨-, rfl⟩ := Prod.mk.inj (Except.ok.inj hstep)
      exact absurd hfault (by simp)
    · rw [hs] at hstep
      obtain ⟨rfl, rfl⟩ := Prod.mk.inj (Except.ok.inj hstep)
      refine ⟨v.page, s, rfl, hfs, ?_⟩
      show ((st.framePositions.erase v.page).assign refs[j] s).find refs[j] = some s
      rw [PageMap.find_assign]
      simp
    · omega

/-- C15 at capacity 2 and references 1 1 2 3. -/
theorem C15_initial_fill_and_cursor_witness :
    (1 : Int) ≤ 2 ∧
    ((∀ i (hi : i < [(1 : Int), 1, 2, 3].length),
      [(1 : Int), 1, 2, 3][i] ∉ [(1 : Int), 1, 2, 3].take i →
      (([(1 : Int), 1, 2, 3].take i).dedup.length : Int) < 2 →
      ∃ st st' r, stateAt 2 [1, 1, 2, 3] i = .ok st ∧
        step 2 st [(1 : Int), 1, 2, 3][i] = .ok (st', r) ∧
        stateAt 2 [1, 1, 2, 3] (i + 1) = .ok st' ∧
        r.isHit = false ∧ r.evicted = none ∧
        st'.framePositions.find [(1 : Int), 1, 2, 3][i] =
          some ([(1 : Int), 1, 2, 3].take i).dedup.length ∧
        st'.framesDisplay[([(1 : Int), 1, 2, 3].take i).dedup.length]? =
          some [(1 : Int), 1, 2, 3][i]) ∧
    (∀ k, k ≤ [(1 : Int), 1, 2, 3].length → ∃ st, stateAt 2 [1, 1, 2, 3] k = .ok st ∧
      (0 : Int) ≤ st.nextInsertIndex ∧ (st.nextInsertIndex : Int) ≤ 2) ∧
    (∀ i j, i ≤ j → j ≤ [(1 : Int), 1, 2, 3].length →
      ∃ sti stj, stateAt 2 [1, 1, 2, 3] i = .ok sti ∧
      stateAt 2 [1, 1, 2, 3] j = .ok stj ∧
      ((sti.pageList.length : Int) = 2 →
        stj.nextInsertIndex = sti.nextInsertIndex ∧
        (stj.pageList.length : Int) = 2)) ∧
    (∀ j (hj : j < [(1 : Int), 1, 2, 3].length), ∃ st st' r,
      stateAt 2 [1, 1, 2, 3] j = .ok st ∧
      step 2 st [(1 : Int), 1, 2, 3][j] = .ok (st', r) ∧
      ((st.pageList.length : Int) = 2 → r.isHit = false →
        ∃ v s, r.evicted = some v ∧ st.framePositions.find v = some s ∧
          st'.framePositions.find [(1 : Int), 1, 2, 3][j] = some s))) :=
  ⟨by decide, C15_initial_fill_and_cursor 2 (by decide) [1, 1, 2, 3]⟩

/-! ## The recency list as a function of the references -/

theorem mem_keepFirst (l : List Int) (x : Int) : x ∈ keepFirst l ↔ x ∈ l := by
  induction l with
  | nil => simp [keepFirst]
  | cons a tl ih =>
    simp only [keepFirst, List.mem_cons, List.mem_filter, ih]
    by_cases h : x = a
    · simp [h]
    · simp [h]

theorem keepFirst_nodup (l : List Int) : (keepFirst l).Nodup := by
  induction l with
  | nil => simp [keepFirst]
  | cons a tl ih =>
    simp only [keepFirst]
    refine List.nodup_cons.2 ⟨?_, ih.sublist (List.filter_sublist _)⟩
    simp [List.mem_filter]

theorem take_filter_of_not_mem (D : List Int) (p : Int) (n : Nat) (h : p ∉ D.take n) :
    (D.filter (fun q => decide (q ≠ p))).take n = D.take n := by
  induction D generalizing n with
  | nil => simp
  | cons a tl ih =>
    cases n with
    | zero => simp
    | succ m =>
      rw [List.take_succ_cons, List.mem_cons, not_or] at h
      have ha : a ≠ p := fun e => h.1 e.symm
      rw [List.filter_cons_of_pos (by simpa using ha), List.take_succ_cons,
        List.take_succ_cons, ih m h.2]

theorem filter_take_of_mem (D : List Int) (p : Int) (n : Nat) (hnd : D.Nodup)
    (h : p ∈ D.take n) :
    (D.take n).filter (fun q => decide (q ≠ p)) =
      (D.filter (fun q => decide (q ≠ p))).take (n - 1) := by
  induction D generalizing n with
  | nil => simp at h
  | cons a tl ih =>
    cases n with
    | zero => simp at h
    | succ m =>
      rw [List.nodup_cons] at hnd
      rw [List.take_succ_cons]
      by_cases ha : a = p
      · subst ha
        have hself : tl.filter (fun q => decide (q ≠ a)) = tl := by
          rw [List.filter_eq_self]
          intro q hq
          have : q ≠ a := fun e => hnd.1 (e ▸ hq)
          simpa using this
        have hself' : (tl.take m).filter (fun q => decide (q ≠ a)) = tl.take m := by
          rw [List.filter_eq_self]
          intro q hq
          have : q ≠ a := fun e => hnd.1 (e ▸ List.mem_of_mem_take hq)
          simpa using this
        rw [List.filter_cons_of_neg (by simp), List.filter_cons_of_neg (by simp), hself,
          hself']
        rfl
      · rw [List.take_succ_cons, List.mem_cons] at h
        have hp : p ∈ tl.take m := by
          rcases h with e | e
          · exact absurd e.symm ha
          · exact e
        have hm : 1 ≤ m := by
          cases m with
          | zero => simp at hp
          | succ k => omega
        obtain ⟨k, rfl⟩ : ∃ k, m = k + 1 := ⟨m - 1, by omega⟩
        rw [List.filter_cons_of_pos (by simpa using ha),
          List.filter_cons_of_pos (by simpa using ha), ih (k + 1) hnd.2 hp]
        rfl

/-- The recency list after `i` references is `recentPages` of the prefix. -/
theorem recentPages_stateAt {C : Nat} (hC : 1 ≤ C) (refs : List Int) (i : Nat)
    (hi : i ≤ refs.length) :
    ∃ st, stateAt C refs i = .ok st ∧ WF C st ∧ st.pages = recentPages C (refs.take i) := by
  induction i with
  | zero =>
    exact ⟨initState C, stateAt_zero _ _, wf_initState C,
      by simp [initState, LRUState.pages, recentPages, keepFirst]⟩
  | succ i ih =>
    obtain ⟨st₀, hst₀, _, hpages⟩ := ih (by omega)
    have hi' : i < refs.length := by omega
    obtain ⟨st, st', r, _, hst, hwf, hstep, hwf', hst', _⟩ := run_iteration hC refs i hi'
    rw [hst₀] at hst
    obtain rfl := Except.ok.inj hst
    have htake : refs.take (i + 1) = refs.take i ++ [refs[i]] := by
      rw [List.take_succ, List.getElem?_eq_getElem hi']; rfl
    obtain ⟨c, rfl⟩ : ∃ c, C = c + 1 := ⟨C - 1, by omega⟩
    have htarget : recentPages (c + 1) (refs.take (i + 1)) =
        refs[i] :: ((keepFirst (refs.take i).reverse).filter
          (fun q => decide (q ≠ refs[i]))).take c := by
      unfold recentPages
      rw [htake, List.reverse_append]
      rfl
    unfold recentPages at hpages
    have hlen : st₀.pageList.length = st₀.pages.length := by simp [LRUState.pages]
    have hsub : ∀ q, q ∈ (keepFirst (refs.take i).reverse).take c → q ∈ st₀.pages := by
      intro q hq
      rw [hpages]
      exact (List.take_sublist_take_left _ (Nat.le_succ c)).subset hq
    refine ⟨st', hst', hwf', ?_⟩
    rw [htarget]
    rcases step_cases hC hwf refs[i] with ⟨hp, it, hit, hs⟩ | ⟨hp, hfull, v, s, _, _, _, _, hs⟩ |
      ⟨hp, hlt, hs⟩
    · rw [hs] at hstep
      obtain ⟨rfl, -⟩ := Prod.mk.inj (Except.ok.inj hstep)
      rw [pages_hitState hwf hit, hpages,
        filter_take_of_mem _ _ _ (keepFirst_nodup _) (hpages ▸ hp)]
      rfl
    · rw [hs] at hstep
      obtain ⟨rfl, -⟩ := Prod.mk.inj (Except.ok.inj hstep)
      rw [pages_replaceState, take_filter_of_not_mem _ _ _ (fun hm => hp (hsub _ hm)),
        List.dropLast_eq_take, ← hlen, hfull, hpages, List.take_take]
      simp
    · rw [hs] at hstep
      obtain ⟨rfl, -⟩ := Prod.mk.inj (Except.ok.inj hstep)
      rw [pages_fillState, take_filter_of_not_mem _ _ _ (fun hm => hp (hsub _ hm)), hpages]
      have hDlen : (keepFirst (refs.take i).reverse).length ≤ c := by
        rw [hlen, hpages, List.length_take] at hlt
        omega
      rw [List.take_of_length_le hDlen, List.take_of_length_le (by omega)]

/-- C16: for every capacity `C` of at least one, every reference sequence and
every step `i`, the recency list after step `i`, front to back, is the list of
the first `C` elements of the reversed prefix `refs[0..i]` with later
duplicates removed; consequently step `i + 1` is a hit exactly when its page is
among these `C` most recently referenced distinct pages. -/
theorem C16_recency_list_characterised (C : Nat) (hC : 1 ≤ C)
    (refs : List Int) (i : Nat) (hi : i < refs.length) :
    ∃ st', stateAt C refs (i + 1) = .ok st' ∧
      st'.pages = ((keepFirst (refs.take (i + 1)).reverse).take C) ∧
      st'.pages = recentPages C (refs.take (i + 1)) ∧
      ∀ (hi' : i + 1 < refs.length), ∃ out r, simulateLRU C refs = .ok out ∧
        out.steps[i + 1]? = some r ∧
        (r.isHit = true ↔ refs[i + 1] ∈ recentPages C (refs.take (i + 1))) := by
  obtain ⟨st', hst', _, hpages⟩ := recentPages_stateAt hC refs (i + 1) (by omega)
  refine ⟨st', hst', hpages, hpages, ?_⟩
  intro hi'
  obtain ⟨st, _, r, out, hst, hwf, hstep, _, _, hout, hr⟩ := run_iteration hC refs (i + 1) hi'
  rw [hst'] at hst
  obtain rfl := Except.ok.inj hst
  refine ⟨out, r, hout, hr, ?_⟩
  rw [← hpages]
  exact (step_counter hC hwf hstep).1

/-- C16 at capacity 2, references 1 2 1 3 2, step 2 (the next step, on page 3,
is a fault; the recency list is 1 2). -/
theorem C16_recency_list_characterised_witness :
    1 ≤ 2 ∧ 2 < [(1 : Int), 2, 1, 3, 2].length ∧
    ∃ st', stateAt (2 : Nat) [1, 2, 1, 3, 2] (2 + 1) = .ok st' ∧
      st'.pages = ((keepFirst ([(1 : Int), 2, 1, 3, 2].take (2 + 1)).reverse).take 2) ∧
      st'.pages = recentPages 2 ([(1 : Int), 2, 1, 3, 2].take (2 + 1)) ∧
      ∀ (hi' : 2 + 1 < [(1 : Int), 2, 1, 3, 2].length), ∃ out r,
        simulateLRU (2 : Nat) [1, 2, 1, 3, 2] = .ok out ∧
        out.steps[2 + 1]? = some r ∧
        (r.isHit = true ↔
          [(1 : Int), 2, 1, 3, 2][2 + 1] ∈ recentPages 2 ([(1 : Int), 2, 1, 3, 2].take (2 + 1))) :=
  ⟨by decide, by decide,
    C16_recency_list_characterised 2 (by decide) [1, 2, 1, 3, 2] 2 (by decide)⟩

/-! ## Larger capacities never fault more -/

theorem inclusion_stateAt {C C' : Nat} (hC : 1 ≤ C) (hCC : C ≤ C') (refs : List Int)
    (k : Nat) (hk : k ≤ refs.length) :
    ∃ st st', stateAt C refs k = .ok st ∧ stateAt C' refs k = .ok st' ∧
      WF C st ∧ WF C' st' ∧ ∀ q ∈ st.pages, q ∈ st'.pages := by
  obtain ⟨st, hst, hwf, hpages⟩ := recentPages_stateAt hC refs k hk
  obtain ⟨st', hst', hwf', hpages'⟩ := recentPages_stateAt (le_trans hC hCC) refs k hk
  refine ⟨st, st', hst, hst', hwf, hwf', ?_⟩
  intro q hq
  rw [hpages] at hq
  rw [hpages']
  exact (List.take_sublist_take_left _ hCC).subset hq

theorem faults_le_stateAt {C C' : Nat} (hC : 1 ≤ C) (hCC : C ≤ C') (refs : List Int)
    (k : Nat) (hk : k ≤ refs.length) :
    ∃ st st', stateAt C refs k = .ok st ∧ stateAt C' refs k = .ok st' ∧
      st'.pageFaults ≤ st.pageFaults := by
  have hC' : 1 ≤ C' := le_trans hC hCC
  induction k with
  | zero => exact ⟨_, _, stateAt_zero _ _, stateAt_zero _ _, le_rfl⟩
  | succ k ih =>
    obtain ⟨st₀, st₀', hst₀, hst₀', hle⟩ := ih (by omega)
    have hk' : k < refs.length := by omega
    obtain ⟨st, st₁, r, _, hst, hwf, hstep, _, hst₁, _⟩ := run_iteration hC refs k hk'
    obtain ⟨st', st₁', r', _, hst', hwf', hstep', _, hst₁', _⟩ := run_iteration hC' refs k hk'
    rw [hst₀] at hst
    obtain rfl := Except.ok.inj hst
    rw [hst₀'] at hst'
    obtain rfl := Except.ok.inj hst'
    obtain ⟨s, s', hs, hs', _, _, hincl⟩ := inclusion_stateAt hC hCC refs k (by omega)
    rw [hst₀] at hs
    obtain rfl := Except.ok.inj hs
    rw [hst₀'] at hs'
    obtain rfl := Except.ok.inj hs'
    obtain ⟨h1, _, h3⟩ := step_counter hC hwf hstep
    obtain ⟨h1', _, h3'⟩ := step_counter hC' hwf' hstep'
    refine ⟨st₁, st₁', hst₁, hst₁', ?_⟩
    rw [h3, h3']
    cases hr : r.isHit with
    | false =>
      cases hr' : r'.isHit <;> simp <;> omega
    | true =>
      have : r'.isHit = true := h1'.2 (hincl _ (h1.1 hr))
      simp [this]
      exact hle

/-- C17: for every reference sequence and all capacities `1 ≤ C ≤ C'`, at
every step the pages resident in the run with capacity `C` are resident in the
run with capacity `C'`, and the total of the run with capacity `C'` is at most
the total of the run with capacity `C`. -/
theorem C17_no_belady_anomaly (C C' : Nat) (hC : 1 ≤ C) (hCC : C ≤ C') (refs : List Int) :
    (∀ k, k ≤ refs.length → ∃ st st', stateAt C refs k = .ok st ∧
      stateAt C' refs k = .ok st' ∧ ∀ q ∈ st.pages, q ∈ st'.pages) ∧
    ∃ out out', simulateLRU C refs = .ok out ∧ simulateLRU C' refs = .ok out' ∧
      out'.total ≤ out.total := by
  have hC' : 1 ≤ C' := le_trans hC hCC
  constructor
  · intro k hk
    obtain ⟨st, st', hst, hst', _, _, hincl⟩ := inclusion_stateAt hC hCC refs k hk
    exact ⟨st, st', hst, hst', hincl⟩
  · obtain ⟨stf, out, hstf, _, hout, htot, _⟩ := run_final hC refs
    obtain ⟨stf', out', hstf', _, hout', htot', _⟩ := run_final hC' refs
    obtain ⟨s, s', hs, hs', hle⟩ := faults_le_stateAt hC hCC refs refs.length le_rfl
    rw [hstf] at hs
    obtain rfl := Except.ok.inj hs
    rw [hstf'] at hs'
    obtain rfl := Except.ok.inj hs'
    exact ⟨out, out', hout, hout', by rw [htot, htot']; exact hle⟩

/-- C17 at capacities 2 and 3 on references 1 2 3 1 2 3 (six faults with two
frames, three with three). -/
theorem C17_no_belady_anomaly_witness :
    1 ≤ 2 ∧ 2 ≤ 3 ∧
    (∀ k, k ≤ [(1 : Int), 2, 3, 1, 2, 3].length → ∃ st st',
      stateAt (2 : Nat) [1, 2, 3, 1, 2, 3] k = .ok st ∧
      stateAt (3 : Nat) [1, 2, 3, 1, 2, 3] k = .ok st' ∧ ∀ q ∈ st.pages, q ∈ st'.pages) ∧
    ∃ out out', simulateLRU (2 : Nat) [1, 2, 3, 1, 2, 3] = .ok out ∧
      simulateLRU (3 : Nat) [1, 2, 3, 1, 2, 3] = .ok out' ∧
      out'.total ≤ out.total :=
  ⟨by decide, by decide, C17_no_belady_anomaly 2 3 (by decide) (by decide) [1, 2, 3, 1, 2, 3]⟩

/-! ## Absence of undefined accesses -/

/-- C18: for every capacity of at least one and every reference sequence the
run ends normally, and at every step: the iteration ends normally; on a hit the
iterator read from the recency index designates a node of the list; on a fault
with the frames full the list is not empty, the page at its back has an entry
in `framePositions`, and that entry is an index of `framesDisplay`; on a fault
with a free frame `nextInsertIndex` is an index of `framesDisplay`; and after
the step `nextInsertIndex` is the number of resident pages. -/
theorem C18_no_undefined_access (numFrames : Int) (hC : 1 ≤ numFrames) (refs : List Int) :
    (∃ out, simulateLRU numFrames refs = .ok out) ∧
    ∀ i (hi : i < refs.length), ∃ st st' r, stateAt numFrames refs i = .ok st ∧
      step numFrames st refs[i] = .ok (st', r) ∧
      stateAt numFrames refs (i + 1) = .ok st' ∧
      (st.framesDisplay.length : Int) = numFrames ∧
      (∀ it, st.pageListIteratorMap.find refs[i] = some it →
        ∃ n ∈ st.pageList, n.handle = it ∧ n.page = refs[i]) ∧
      (st.pageListIteratorMap.find refs[i] = none →
        (st.pageList.length : Int) = numFrames →
        ∃ v s, st.pageList.getLast? = some v ∧ st.framePositions.find v.page = some s ∧
          s < st.framesDisplay.length) ∧
      (st.pageListIteratorMap.find refs[i] = none →
        (st.pageList.length : Int) ≠ numFrames →
        st.nextInsertIndex < st.framesDisplay.length) ∧
      st'.nextInsertIndex = st'.pages.length := by
  lift numFrames to ℕ using (by omega)
  have hC' : 1 ≤ numFrames := by omega
  constructor
  · obtain ⟨_, out, _, _, hout, _⟩ := run_final hC' refs
    exact ⟨out, hout⟩
  · intro i hi
    obtain ⟨st, st', r, _, hst, hwf, hstep, hwf', hst', _⟩ := run_iteration hC' refs i hi
    refine ⟨st, st', r, hst, hstep, hst', by exact_mod_cast hwf.display_len, ?_, ?_, ?_, ?_⟩
    · intro it hit
      exact ⟨Node.mk it refs[i], (hwf.iter_iff _ _).1 hit, rfl, rfl⟩
    · intro hnone hfull
      have hfull' : st.pageList.length = numFrames := by exact_mod_cast hfull
      have hp := (hwf.find_none_iff _).1 hnone
      obtain ⟨v, s, hl, hfs, hsC, _, _⟩ := step_fault_full hwf hC' hp hfull'
      exact ⟨v, s, by rw [hl]; simp, hfs, by rw [hwf.display_len]; exact hsC⟩
    · intro _ hne
      have hne' : st.pageList.length ≠ numFrames := fun e => hne (by exact_mod_cast e)
      have := hwf.size_le
      rw [hwf.display_len, hwf.next_eq]
      omega
    · rw [hwf'.next_eq]
      simp [LRUState.pages]

/-- C18 at capacity 2 and references 1 2 1 3. -/
theorem C18_no_undefined_access_witness :
    (1 : Int) ≤ 2 ∧
    ((∃ out, simulateLRU 2 [1, 2, 1, 3] = .ok out) ∧
    ∀ i (hi : i < [(1 : Int), 2, 1, 3].length), ∃ st st' r,
      stateAt 2 [1, 2, 1, 3] i = .ok st ∧
      step 2 st [(1 : Int), 2, 1, 3][i] = .ok (st', r) ∧
      stateAt 2 [1, 2, 1, 3] (i + 1) = .ok st' ∧
      (st.framesDisplay.length : Int) = 2 ∧
      (∀ it, st.pageListIteratorMap.find [(1 : Int), 2, 1, 3][i] = some it →
        ∃ n ∈ st.pageList, n.handle = it ∧ n.page = [(1 : Int), 2, 1, 3][i]) ∧
      (st.pageListIteratorMap.find [(1 : Int), 2, 1, 3][i] = none →
        (st.pageList.length : Int) = 2 →
        ∃ v s, st.pageList.getLast? = some v ∧ st.framePositions.find v.page = some s ∧
          s < st.framesDisplay.length) ∧
      (st.pageListIteratorMap.find [(1 : Int), 2, 1, 3][i] = none →
        (st.pageList.length : Int) ≠ 2 →
        st.nextInsertIndex < st.framesDisplay.length) ∧
      st'.nextInsertIndex = st'.pages.length) :=
  ⟨by decide, C18_no_undefined_access 2 (by decide) [1, 2, 1, 3]⟩

/-! ## Bounds on the total -/

theorem dedup_length_append_singleton (l : List Int) (p : Int) :
    (l ++ [p]).dedup.length = if p ∈ l then l.dedup.length else l.dedup.length + 1 := by
  have hperm : (l ++ [p]).dedup.Perm (p :: l).dedup :=
    (List.perm_append_singleton p l).dedup
  rw [hperm.length_eq]
  by_cases h : p ∈ l
  · rw [if_pos h, List.dedup_cons_of_mem h]
  · rw [if_neg h, List.dedup_cons_of_not_mem h, List.length_cons]

/-- The counter after `k` references lies between the number of distinct pages
referenced and `k`, and equals the former when these pages all fit. -/
theorem bounds_stateAt {C : Nat} (hC : 1 ≤ C) (refs : List Int) (k : Nat)
    (hk : k ≤ refs.length) :
    ∃ st, stateAt C refs k = .ok st ∧ (refs.take k).dedup.length ≤ st.pageFaults ∧
      st.pageFaults ≤ k ∧
      ((refs.take k).dedup.length ≤ C → st.pageFaults = (refs.take k).dedup.length) := by
  induction k with
  | zero => exact ⟨initState C, stateAt_zero _ _, by simp [initState], by simp [initState],
      by simp [initState]⟩
  | succ k ih =>
    obtain ⟨st₀, hst₀, hlo, hup, hex⟩ := ih (by omega)
    have hk' : k < refs.length := by omega
    obtain ⟨st, st', r, _, hst, hwf, hstep, _, hst', _⟩ := run_iteration hC refs k hk'
    rw [hst₀] at hst
    obtain rfl := Except.ok.inj hst
    obtain ⟨s, hs, _, hsub, hlen⟩ := length_pages_stateAt hC refs k (by omega)
    rw [hst₀] at hs
    obtain rfl := Except.ok.inj hs
    have htake : refs.take (k + 1) = refs.take k ++ [refs[k]] := by
      rw [List.take_succ, List.getElem?_eq_getElem hk']; rfl
    obtain ⟨h1, _, h3⟩ := step_counter hC hwf hstep
    refine ⟨st', hst', ?_⟩
    rw [htake, dedup_length_append_singleton, h3]
    by_cases hmem : refs[k] ∈ refs.take k
    · rw [if_pos hmem]
      refine ⟨?_, ?_, ?_⟩
      · cases r.isHit <;> simp <;> omega
      · cases r.isHit <;> simp <;> omega
      · intro hD
        have hperm : st₀.pages.Perm (refs.take k).dedup :=
          (List.subperm_of_subset hwf.pages_nodup
            (fun q hq => List.mem_dedup.2 (hsub q hq))).perm_of_length_le
            (by rw [hlen]; omega)
        have hres : refs[k] ∈ st₀.pages := hperm.mem_iff.2 (List.mem_dedup.2 hmem)
        rw [h1.2 hres]
        simpa using hex hD
    · rw [if_neg hmem]
      have hp : refs[k] ∉ st₀.pages := fun hm => hmem (hsub _ hm)
      have hnh : r.isHit = false := by
        cases hr : r.isHit with
        | false => rfl
        | true => exact absurd (h1.1 hr) hp
      rw [hnh]
      refine ⟨by simp; omega, by simp; omega, ?_⟩
      intro hD
      have := hex (by omega)
      simp
      omega

theorem dedup_length_take_le (refs : List Int) (k : Nat) :
    (refs.take k).dedup.length ≤ refs.dedup.length :=
  (List.subperm_of_subset (List.nodup_dedup _)
    (fun _ hq => List.mem_dedup.2 (List.mem_of_mem_take (List.mem_dedup.1 hq)))).length_le

/-- A step on a page that has not been referenced before is a fault; and when
all the distinct pages of the sequence fit in the frames, a step is a fault
only on a page not referenced before, and no step evicts. -/
theorem first_reference_step {C : Nat} (hC : 1 ≤ C) (refs : List Int) (i : Nat)
    (hi : i < refs.length) :
    ∃ st st' r out, stateAt C refs i = .ok st ∧ step C st refs[i] = .ok (st', r) ∧
      simulateLRU C refs = .ok out ∧ out.steps[i]? = some r ∧
      (refs[i] ∉ refs.take i → r.isHit = false) ∧
      (refs.dedup.length ≤ C →
        (r.isHit = false ↔ refs[i] ∉ refs.take i) ∧ r.evicted = none ∧
        (r.isHit = true → st'.pages.length = st.pages.length) ∧
        (r.isHit = false → st'.pages = refs[i] :: st.pages)) := by
  obtain ⟨st, st', r, out, hst, hwf, hstep, _, _, hout, hr⟩ := run_iteration hC refs i hi
  obtain ⟨s, hs, _, hsub, hlen⟩ := length_pages_stateAt hC refs i (by omega)
  rw [hst] at hs
  obtain rfl := Except.ok.inj hs
  obtain ⟨h1, _, _⟩ := step_counter hC hwf hstep
  have hfirst : refs[i] ∉ refs.take i → r.isHit = false := by
    intro hnew
    cases hr' : r.isHit with
    | false => rfl
    | true => exact absurd (hsub _ (h1.1 hr')) hnew
  refine ⟨st, st', r, out, hst, hstep, hout, hr, hfirst, ?_⟩
  intro hD
  have htake : refs.take (i + 1) = refs.take i ++ [refs[i]] := by
    rw [List.take_succ, List.getElem?_eq_getElem hi]; rfl
  have hDi : (refs.take i).dedup.length ≤ C := le_trans (dedup_length_take_le refs i) hD
  have hDi' := dedup_length_take_le refs (i + 1)
  rw [htake, dedup_length_append_singleton] at hDi'
  have hperm : st.pages.Perm (refs.take i).dedup :=
    (List.subperm_of_subset hwf.pages_nodup
      (fun q hq => List.mem_dedup.2 (hsub q hq))).perm_of_length_le
      (by rw [hlen]; omega)
  have hres : refs[i] ∈ st.pages ↔ refs[i] ∈ refs.take i := by
    rw [hperm.mem_iff, List.mem_dedup]
  have hlenL : st.pageList.length = (refs.take i).dedup.length := by
    have : st.pages.length = (refs.take i).dedup.length := by rw [hlen]; omega
    simpa [LRUState.pages] using this
  rcases step_cases hC hwf refs[i] with ⟨hp, it, hit, hs⟩ | ⟨hp, hfull, _⟩ | ⟨hp, _, hs⟩
  · rw [hs] at hstep
    obtain ⟨rfl, rfl⟩ := Prod.mk.inj (Except.ok.inj hstep)
    refine ⟨?_, rfl, ?_, ?_⟩
    · constructor
      · intro h; exact absurd h (by simp)
      · intro h; exact absurd (hres.1 hp) h
    · intro _
      exact ((List.perm_cons_erase hit).symm.map Node.page).length_eq
    · intro h; exact absurd h (by simp)
  · exfalso
    have hnew : refs[i] ∉ refs.take i := fun hm => hp (hres.2 hm)
    rw [if_neg hnew] at hDi'
    omega
  · rw [hs] at hstep
    obtain ⟨rfl, rfl⟩ := Prod.mk.inj (Except.ok.inj hstep)
    refine ⟨?_, rfl, ?_, ?_⟩
    · constructor
      · intro _ hm; exact hp (hres.2 hm)
      · intro _; rfl
    · intro h; exact absurd h (by simp)
    · intro _; exact pages_fillState st refs[i]

/-- C19: for every capacity `C` of at least one and every reference sequence
with `N` references and `D` distinct pages, the run ends normally with a total
`F` such that `D ≤ F ≤ N`, every step on a page not referenced before being a
fault; when `D ≤ C`, `F = D`, a step is a fault exactly when its page has not
been referenced before, no step evicts a page, and no page ever leaves the
recency list (a hit keeps its size, a fault adds its page in front); the empty
sequence gives no step and the total 0. -/
theorem C19_fault_total_bounds (numFrames : Int) (hC : 1 ≤ numFrames) (refs : List Int) :
    (∃ out, simulateLRU numFrames refs = .ok out ∧
      refs.dedup.length ≤ out.total ∧ out.total ≤ refs.length ∧
      ((refs.dedup.length : Int) ≤ numFrames → out.total = refs.dedup.length) ∧
      out.steps.length = refs.length ∧
      (∀ i (hi : i < refs.length), ∃ st st' r, stateAt numFrames refs i = .ok st ∧
        step numFrames st refs[i] = .ok (st', r) ∧ out.steps[i]? = some r ∧
        (refs[i] ∉ refs.take i → r.isHit = false) ∧
        ((refs.dedup.length : Int) ≤ numFrames →
          (r.isHit = false ↔ refs[i] ∉ refs.take i) ∧ r.evicted = none ∧
          (r.isHit = true → st'.pages.length = st.pages.length) ∧
          (r.isHit = false → st'.pages = refs[i] :: st.pages)))) ∧
    simulateLRU numFrames [] = .ok { steps := [], total := 0 } := by
  lift numFrames to ℕ using (by omega)
  have hC' : 1 ≤ numFrames := by omega
  constructor
  · obtain ⟨stf, out, hstf, _, hout, htot, hsteps⟩ := run_final hC' refs
    obtain ⟨s, hs, hlo, hup, hex⟩ := bounds_stateAt hC' refs refs.length le_rfl
    rw [hstf] at hs
    obtain rfl := Except.ok.inj hs
    rw [List.take_length] at hlo hex
    refine ⟨out, hout, by rw [htot]; exact hlo, by rw [htot]; exact hup, ?_, hsteps, ?_⟩
    · intro hD
      rw [htot]
      exact hex (by exact_mod_cast hD)
    · intro i hi
      obtain ⟨st, st', r, out', hst, hstep, hout', hr, hfirst, hfit⟩ :=
        first_reference_step hC' refs i hi
      rw [hout] at hout'
      obtain rfl := Except.ok.inj hout'
      exact ⟨st, st', r, hst, hstep, hr, hfirst, fun hD => hfit (by exact_mod_cast hD)⟩
  · have : ¬ ((numFrames : Int) < 0) := by omega
    simp [simulateLRU, this, runSteps, initState]

/-- C19 at capacity 3 and references 1 2 1 3 2 (three distinct pages, three
faults, at steps 0, 1 and 3, and no eviction), together with the complete
output of that run. -/
theorem C19_fault_total_bounds_witness :
    (1 : Int) ≤ 3 ∧
    simulateLRU 3 [1, 2, 1, 3, 2] = .ok
      { steps := [⟨false, none, [1]⟩, ⟨false, none, [1, 2]⟩, ⟨true, none, [1, 2]⟩,
          ⟨false, none, [1, 2, 3]⟩, ⟨true, none, [1, 2, 3]⟩], total := 3 } ∧
    ((∃ out, simulateLRU 3 [1, 2, 1, 3, 2] = .ok out ∧
      [(1 : Int), 2, 1, 3, 2].dedup.length ≤ out.total ∧
      out.total ≤ [(1 : Int), 2, 1, 3, 2].length ∧
      (([(1 : Int), 2, 1, 3, 2].dedup.length : Int) ≤ 3 →
        out.total = [(1 : Int), 2, 1, 3, 2].dedup.length) ∧
      out.steps.length = [(1 : Int), 2, 1, 3, 2].length ∧
      (∀ i (hi : i < [(1 : Int), 2, 1, 3, 2].length), ∃ st st' r,
        stateAt 3 [1, 2, 1, 3, 2] i = .ok st ∧
        step 3 st [(1 : Int), 2, 1, 3, 2][i] = .ok (st', r) ∧ out.steps[i]? = some r ∧
        ([(1 : Int), 2, 1, 3, 2][i] ∉ [(1 : Int), 2, 1, 3, 2].take i → r.isHit = false) ∧
        (([(1 : Int), 2, 1, 3, 2].dedup.length : Int) ≤ 3 →
          (r.isHit = false ↔ [(1 : Int), 2, 1, 3, 2][i] ∉ [(1 : Int), 2, 1, 3, 2].take i) ∧
          r.evicted = none ∧
          (r.isHit = true → st'.pages.length = st.pages.length) ∧
          (r.isHit = false → st'.pages = [(1 : Int), 2, 1, 3, 2][i] :: st.pages)))) ∧
    simulateLRU 3 [] = .ok { steps := [], total := 0 }) :=
  ⟨by decide, rfl, C19_fault_total_bounds 3 (by decide) [1, 2, 1, 3, 2]⟩

/-! ## The printed line and the resident pages -/

theorem printed_eq_take (l : List Int) (n : Nat) (hn : n ≤ l.length)
    (hocc : ∀ s, s < n → l[s]? ≠ some (-1))
    (hemp : ∀ s, n ≤ s → s < l.length → l[s]? = some (-1)) :
    printedFrames l = l.take n := by
  induction l generalizing n with
  | nil => simp [printedFrames]
  | cons a tl ih =>
    cases n with
    | zero =>
      have ha : a = -1 := by simpa using hemp 0 le_rfl (by simp)
      have htl := ih 0 (Nat.zero_le _) (fun s hs => absurd hs (Nat.not_lt_zero _))
        (fun s _ hs => by simpa using hemp (s + 1) (Nat.zero_le _) (by simpa using hs))
      simp only [printedFrames] at htl ⊢
      rw [List.filter_cons_of_neg (by simp [ha]), htl]
      rfl
    | succ m =>
      have ha : a ≠ -1 := by simpa using hocc 0 (Nat.succ_pos _)
      have htl := ih m (by simpa using hn)
        (fun s hs => by simpa using hocc (s + 1) (by omega))
        (fun s hs hs' => by simpa using hemp (s + 1) (by omega) (by simpa using hs'))
      simp only [printedFrames] at htl ⊢
      rw [List.filter_cons_of_pos (by simpa using ha), htl]
      rfl

/-- When `-1` is not resident the printed line lists the resident pages, each
once. -/
theorem printed_nodup_perm {C : Nat} {st : LRUState} (h : WF C st)
    (hneg : (-1 : Int) ∉ st.pages) :
    (printedFrames st.framesDisplay).Nodup ∧
      (printedFrames st.framesDisplay).Perm st.pages := by
  have hnC : st.nextInsertIndex ≤ st.framesDisplay.length := by
    rw [h.display_len, h.next_eq]; exact h.size_le
  have htake : printedFrames st.framesDisplay = st.framesDisplay.take st.nextInsertIndex := by
    apply printed_eq_take _ _ hnC
    · intro s hs he
      obtain ⟨p, hp⟩ := h.display_pos s hs
      obtain ⟨h1, _, h3⟩ := h.pos_display p s hp
      rw [he] at h3
      exact hneg ((Option.some.inj h3) ▸ h1)
    · intro s hs hs'
      exact h.display_empty s hs (by rw [← h.display_len]; exact hs')
  have hnd : (printedFrames st.framesDisplay).Nodup := by
    rw [htake, List.nodup_iff_getElem?_ne_getElem?]
    intro a b hab hb he
    rw [List.length_take] at hb
    have hbn : b < st.nextInsertIndex := by omega
    rw [List.getElem?_take_of_lt (by omega), List.getElem?_take_of_lt hbn] at he
    obtain ⟨p, hp⟩ := h.display_pos a (by omega)
    obtain ⟨q, hq⟩ := h.display_pos b hbn
    have h1 := (h.pos_display p a hp).2.2
    have h2 := (h.pos_display q b hq).2.2
    rw [he, h2] at h1
    obtain rfl := Option.some.inj h1
    rw [hp] at hq
    have := Option.some.inj hq
    omega
  refine ⟨hnd, (List.perm_ext_iff_of_nodup hnd h.pages_nodup).2 ?_⟩
  intro a
  unfold printedFrames
  rw [List.mem_filter]
  constructor
  · rintro ⟨ha, hne⟩
    rcases h.mem_display ha with e | e
    · exact absurd e (by simpa using hne)
    · exact e
  · intro ha
    obtain ⟨s, hs⟩ := h.pos_dom a ha
    have hd := (h.pos_display a s hs).2.2
    refine ⟨List.mem_iff_getElem?.2 ⟨s, hd⟩, ?_⟩
    have : a ≠ -1 := fun e => hneg (e ▸ ha)
    simpa using this

/-- C20: for every capacity of at least one and every reference sequence in
which `-1` does not occur, at every step the pages printed on the time-step
line (the entries of `framesDisplay` other than `-1`, in slot order) are
pairwise distinct and form a permutation of the recency list: exactly the
resident pages are printed, each once. -/
theorem C20_printed_pages_are_resident_pages (numFrames : Int) (hC : 1 ≤ numFrames)
    (refs : List Int) (hneg : (-1 : Int) ∉ refs) (i : Nat) (hi : i < refs.length) :
    ∃ out st' r, simulateLRU numFrames refs = .ok out ∧
      stateAt numFrames refs (i + 1) = .ok st' ∧ out.steps[i]? = some r ∧
      r.printed = printedFrames st'.framesDisplay ∧
      r.printed.Nodup ∧ r.printed.Perm st'.pages ∧
      ∀ q, q ∈ r.printed ↔ q ∈ st'.pages := by
  lift numFrames to ℕ using (by omega)
  have hC' : 1 ≤ numFrames := by omega
  obtain ⟨st, st', r, out, _, hwf, hstep, hwf', hst', hout, hr⟩ :=
    run_iteration hC' refs i hi
  obtain ⟨s, hs, hsub, _⟩ := seen_stateAt hC' refs (i + 1) (by omega)
  rw [hst'] at hs
  obtain rfl := Except.ok.inj hs
  have hres : (-1 : Int) ∉ st'.pages := fun hm => hneg (List.mem_of_mem_take (hsub _ hm))
  have hpr := step_printed hC' hwf hstep
  obtain ⟨hnd, hperm⟩ := printed_nodup_perm hwf' hres
  exact ⟨out, st', r, hout, hst', hr, hpr, by rw [hpr]; exact hnd, by rw [hpr]; exact hperm,
    fun q => by rw [hpr]; exact hperm.mem_iff⟩

/-- C20 at capacity 2, references 1 2 3, step 2 (printed 3 2, recency list
3 2). -/
theorem C20_printed_pages_are_resident_pages_witness :
    (1 : Int) ≤ 2 ∧ (-1 : Int) ∉ [(1 : Int), 2, 3] ∧ 2 < [(1 : Int), 2, 3].length ∧
    ∃ out st' r, simulateLRU 2 [1, 2, 3] = .ok out ∧
      stateAt 2 [1, 2, 3] (2 + 1) = .ok st' ∧ out.steps[2]? = some r ∧
      r.printed = printedFrames st'.framesDisplay ∧
      r.printed.Nodup ∧ r.printed.Perm st'.pages ∧
      ∀ q, q ∈ r.printed ↔ q ∈ st'.pages :=
  ⟨by decide, by decide, by decide,
    C20_printed_pages_are_resident_pages 2 (by decide) [1, 2, 3] (by decide) 2 (by decide)⟩

end LRU
